import Mathlib

/-!
Shallow embedding of the input layer of the `achimcc/rust-analyzer` repository:
the `cfg` crate (conditional-compilation options and diffs), the crate graph of
`crates/base_db/src/input.rs`, and the change-application protocol of
`crates/base_db/src/change.rs`.  Identifiers (`CrateId`, `FileId`,
`SourceRootId`) are modelled as `Nat`; interned strings (`SmolStr`) as
`String`; `FxHashMap`/`FxHashSet` as association lists / lists with set
semantics.  Rust panics (indexing a missing key, a failed assertion) are
modelled by `Option` results or, where a claim's hypotheses rule the panic
out, by harmless default values that the hypotheses make unreachable.
-/

namespace RA

/-! ## Conditional-compilation model (`crates/cfg/src/lib.rs`) -/

/-- `CfgAtom`: either a bare flag like `unix`, or a key-value option like
`feature = "std"`. -/
inductive CfgAtom where
  | flag (key : String)
  | keyValue (key : String) (value : String)
deriving DecidableEq, Repr

/-- `CfgOptions`: the set of enabled atoms (`FxHashSet<CfgAtom>` modelled as a
list with set semantics). -/
structure CfgOptions where
  enabled : List CfgAtom
deriving DecidableEq, Repr

/-- Modelled from the spec: the conditional-compilation expression type lives
in `crates/cfg/src/cfg_expr.rs`, which is not part of the provided sources.
Per the spec (§3) an expression is "a tree over atoms with `all`, `any`,
`not`, and atom-test nodes". -/
inductive CfgExpr where
  | atom (a : CfgAtom)
  | all (ps : List CfgExpr)
  | any (ps : List CfgExpr)
  | not (p : CfgExpr)

mutual

/-- Modelled from the spec: `CfgExpr::fold`, the evaluator used by
`CfgOptions::check`, is in the missing `cfg_expr.rs`.  Per the spec (§3)
"evaluation is a three-valued fold: `true`/`false` when every referenced
atom's membership is known, `indeterminate` only if the evaluator is given a
partial oracle".  The oracle `q` may be partial (`Option Bool`). -/
def CfgExpr.fold (q : CfgAtom → Option Bool) : CfgExpr → Option Bool
  | .atom a => q a
  | .all ps => CfgExpr.foldAll q ps
  | .any ps => CfgExpr.foldAny q ps
  | .not p => (CfgExpr.fold q p).map (fun b => !b)

/-- Three-valued conjunction over a list of subexpressions. -/
def CfgExpr.foldAll (q : CfgAtom → Option Bool) : List CfgExpr → Option Bool
  | [] => some true
  | p :: ps => do
    let b ← CfgExpr.fold q p
    let c ← CfgExpr.foldAll q ps
    pure (b && c)

/-- Three-valued disjunction over a list of subexpressions. -/
def CfgExpr.foldAny (q : CfgAtom → Option Bool) : List CfgExpr → Option Bool
  | [] => some false
  | p :: ps => do
    let b ← CfgExpr.fold q p
    let c ← CfgExpr.foldAny q ps
    pure (b || c)

end

/-- `CfgOptions::check`: evaluate an expression against the total membership
oracle of the enabled-atom set. -/
def CfgOptions.check (o : CfgOptions) (cfg : CfgExpr) : Option Bool :=
  cfg.fold (fun a => some (decide (a ∈ o.enabled)))

/-- `FxHashSet::insert` on the enabled-atom set (set semantics: inserting a
present atom is a no-op). -/
def CfgOptions.insertAtomSet (l : List CfgAtom) (a : CfgAtom) : List CfgAtom :=
  if a ∈ l then l else a :: l

/-- `FxHashSet::remove` on the enabled-atom set. -/
def CfgOptions.removeAtomSet (l : List CfgAtom) (a : CfgAtom) : List CfgAtom :=
  l.filter (fun x => decide (x ≠ a))

/-- `CfgDiff`: a list of atoms to enable and a list to disable. -/
structure CfgDiff where
  enable : List CfgAtom
  disable : List CfgAtom
deriving DecidableEq, Repr

/-- `CfgOptions::apply_diff`: first insert every atom of `diff.enable`, then
remove every atom of `diff.disable`. -/
def CfgOptions.applyDiff (o : CfgOptions) (diff : CfgDiff) : CfgOptions :=
  let afterEnable := diff.enable.foldl CfgOptions.insertAtomSet o.enabled
  let afterDisable := diff.disable.foldl CfgOptions.removeAtomSet afterEnable
  ⟨afterDisable⟩

/-- The `occupied` loop of `CfgDiff::new`: scan the items, tracking the set of
atoms seen so far; report `true` as soon as an item repeats. -/
def CfgDiff.hasDupScan (seen : List CfgAtom) : List CfgAtom → Bool
  | [] => false
  | x :: xs => if x ∈ seen then true else CfgDiff.hasDupScan (x :: seen) xs

/-- `CfgDiff::new`: fails (returns `none`) when the same atom appears more
than once across `enable ++ disable`; otherwise returns the diff carrying
exactly the given lists. -/
def CfgDiff.new (enable disable : List CfgAtom) : Option CfgDiff :=
  if CfgDiff.hasDupScan [] (enable ++ disable) then none
  else some ⟨enable, disable⟩

end RA

namespace RA

/-! ## Crate graph (`crates/base_db/src/input.rs`) -/

/-- `Edition`: the language edition tag. -/
inductive Edition where
  | edition2015
  | edition2018
  | edition2021
deriving DecidableEq, Repr

/-- `CrateDisplayName`: the underscored name used for display plus the
canonical (possibly dashed) name from the manifest.  `Deref` on the Rust type
yields `crate_name`. -/
structure CrateDisplayName where
  crate_name : String
  canonical_name : String
deriving DecidableEq, Repr

/-- `Dependency`: a named, directed edge to another crate.  `CrateName` (a
dash-free interned string) is modelled as `String`. -/
structure Dependency where
  crate_id : Nat
  name : String
deriving DecidableEq, Repr

/-- `CrateData`: the per-crate record.  The `proc_macro` list of plugin
handles is omitted: it carries opaque function capabilities and no claim
depends on it. -/
structure CrateData where
  root_file_id : Nat
  edition : Edition
  display_name : Option CrateDisplayName
  cfg_options : CfgOptions
  potential_cfg_options : CfgOptions
  env : List (String × String)
  dependencies : List Dependency
deriving DecidableEq, Repr

/-- `CrateGraph`: the arena `FxHashMap<CrateId, CrateData>`, modelled as an
association list (no duplicate keys arise through the public interface). -/
structure CrateGraph where
  arena : List (Nat × CrateData)
deriving DecidableEq, Repr

/-- The key set of the arena, in iteration order. -/
def CrateGraph.keys (g : CrateGraph) : List Nat :=
  g.arena.map (fun p => p.1)

/-- Arena lookup (`self.arena[&crate_id]` / `self.arena.get(&crate_id)`). -/
def CrateGraph.lookupId (g : CrateGraph) (c : Nat) : Option CrateData :=
  match g.arena.find? (fun p => decide (p.1 = c)) with
  | some p => some p.2
  | none => none

/-- The dependency targets of a crate.  In Rust, indexing a crate that is not
in the arena panics; here it yields `[]`, and every theorem's hypotheses keep
the lookups inside the arena. -/
def CrateGraph.succList (g : CrateGraph) (c : Nat) : List Nat :=
  match g.lookupId c with
  | some d => d.dependencies.map (fun dep => dep.crate_id)
  | none => []

/-- One dependency edge: `u`'s record lists `v` as a target. -/
def CrateGraph.edgeRel (g : CrateGraph) (u v : Nat) : Prop :=
  ∃ d, g.lookupId u = some d ∧ v ∈ d.dependencies.map (fun dep => dep.crate_id)

/-- Forward reachability along dependency edges (reflexive-transitive). -/
def CrateGraph.Reaches (g : CrateGraph) : Nat → Nat → Prop :=
  Relation.ReflTransGen g.edgeRel

/-- Acyclicity: no dependency edge closes a cycle. -/
def CrateGraph.Acyclic (g : CrateGraph) : Prop :=
  ∀ u v, g.edgeRel u v → ¬ g.Reaches v u

/-- Well-formedness of the arena: keys are exactly `{0, …, n-1}` with no
duplicates, and every dependency edge's target is a key. -/
def CrateGraph.Wf (g : CrateGraph) : Prop :=
  g.keys.Nodup ∧ (∀ i ∈ g.keys, i < g.arena.length) ∧
    (∀ i < g.arena.length, i ∈ g.keys) ∧
    (∀ p ∈ g.arena, ∀ dep ∈ p.2.dependencies, dep.crate_id ∈ g.keys)

instance (g : CrateGraph) : Decidable g.Wf := by
  unfold CrateGraph.Wf
  infer_instance

/-- `FxHashMap::insert`: replace the value when the key is present, otherwise
add the binding. -/
def insertKV (arena : List (Nat × CrateData)) (k : Nat) (v : CrateData) :
    List (Nat × CrateData) :=
  if arena.any (fun p => decide (p.1 = k)) then
    arena.map (fun p => if p.1 = k then (p.1, v) else p)
  else arena ++ [(k, v)]

/-- `CrateGraph::add_crate_root`: insert a fresh crate with the next dense
identifier and no dependencies.  The Rust code asserts that the identifier
was not already present; the panic is modelled as `none`. -/
def CrateGraph.addCrateRoot (g : CrateGraph) (file_id : Nat) (edition : Edition)
    (display_name : Option CrateDisplayName) (cfg_options potential_cfg_options : CfgOptions)
    (env : List (String × String)) : Option (Nat × CrateGraph) :=
  let data : CrateData :=
    { root_file_id := file_id, edition := edition, display_name := display_name
      cfg_options := cfg_options, potential_cfg_options := potential_cfg_options
      env := env, dependencies := [] }
  let crate_id := g.arena.length
  if (g.lookupId crate_id).isSome then none
  else some (crate_id, ⟨insertKV g.arena crate_id data⟩)

/-- `self.arena.get_mut(&c)` followed by a mutation of the entry. -/
def CrateGraph.updateCrate (g : CrateGraph) (c : Nat) (f : CrateData → CrateData) :
    CrateGraph :=
  ⟨g.arena.map (fun p => if p.1 = c then (p.1, f p.2) else p)⟩

/-- `CrateGraph::dfs_find`: depth-first search for `target` starting at `frm`,
with the mutable visited set threaded through the loop over the dependency
edges.  The Rust recursion is bounded by the growth of the visited set; the
embedding makes that bound an explicit fuel parameter, and
`dfs_find` is entered with provably sufficient fuel. -/
def CrateGraph.dfsVisit (g : CrateGraph) (target : Nat) :
    Nat → Nat → List Nat → Bool × List Nat
  | 0, _, visited => (false, visited)
  | fuel + 1, frm, visited =>
    if frm ∈ visited then (false, visited)
    else if target = frm then (true, frm :: visited)
    else
      (g.succList frm).foldl
        (fun p c => if p.1 then p else g.dfsVisit target fuel c p.2)
        (false, frm :: visited)

/-- The entry point of the search in `add_dep`: fresh visited set, fuel one
more than the number of crates. -/
def CrateGraph.dfsFindB (g : CrateGraph) (target frm : Nat) : Bool :=
  (g.dfsVisit target (g.arena.length + 1) frm []).1

/-- `CyclicDependenciesError`: both endpoints' identifiers and display
names. -/
structure CyclicDependenciesError where
  from_ : Nat × Option CrateDisplayName
  to_ : Nat × Option CrateDisplayName
deriving DecidableEq, Repr

/-- `CrateGraph::add_dep`: reject the edge when `frm` is reachable from `t`
(leaving the graph untouched), otherwise append the edge to `frm`'s
dependency list.  The pair returns the error alongside the (possibly
updated) graph, mirroring `&mut self` plus `Result`. -/
def CrateGraph.addDep (g : CrateGraph) (frm : Nat) (name : String) (t : Nat) :
    Option CyclicDependenciesError × CrateGraph :=
  if g.dfsFindB frm t then
    (some { from_ := (frm, (g.lookupId frm).bind (fun d => d.display_name))
            to_ := (t, (g.lookupId t).bind (fun d => d.display_name)) }, g)
  else
    (none, g.updateCrate frm (fun d =>
      { d with dependencies := d.dependencies ++ [{ crate_id := t, name := name }] }))

/-- Fuel bound for the `transitive_deps` work-list: one plus the number of
crates plus the total number of dependency edges, plus slack. -/
def CrateGraph.fuelBound (g : CrateGraph) : Nat :=
  2 + g.arena.length + (g.arena.map (fun p => p.2.dependencies.length)).sum

/-- The work-list loop of `CrateGraph::transitive_deps`.  The Rust `Vec`
stack is encoded with its top at the head, so `worklist.extend(it)` prepends
`it` reversed. -/
def CrateGraph.transDepsLoop (g : CrateGraph) : Nat → List Nat → List Nat → List Nat
  | 0, _, deps => deps
  | fuel + 1, worklist, deps =>
    match worklist with
    | [] => deps
    | krate :: rest =>
      if krate ∈ deps then g.transDepsLoop fuel rest deps
      else g.transDepsLoop fuel ((g.succList krate).reverse ++ rest) (krate :: deps)

/-- `CrateGraph::transitive_deps`: all crates reachable from `of`, including
`of` itself. -/
def CrateGraph.transitiveDeps (g : CrateGraph) (of : Nat) : List Nat :=
  g.transDepsLoop g.fuelBound [of] []

/-- The reverse-adjacency index built by `transitive_rev_deps`: all crates
whose dependency list targets `v`, one occurrence per matching edge, in arena
order. -/
def CrateGraph.invSucc (g : CrateGraph) (v : Nat) : List Nat :=
  (g.arena.map (fun p =>
    p.2.dependencies.filterMap (fun dep =>
      if dep.crate_id = v then some p.1 else none))).flatten

/-- The work-list loop of `CrateGraph::transitive_rev_deps`: popped crates
have already been inserted; each reverse neighbour is inserted (and pushed)
only if new. -/
def CrateGraph.transRevDepsLoop (g : CrateGraph) : Nat → List Nat → List Nat → List Nat
  | 0, _, revDeps => revDeps
  | fuel + 1, worklist, revDeps =>
    match worklist with
    | [] => revDeps
    | krate :: rest =>
      let q := (g.invSucc krate).foldl
        (fun q r => if r ∈ q.1 then q else (r :: q.1, r :: q.2)) (revDeps, rest)
      g.transRevDepsLoop fuel q.2 q.1

/-- `CrateGraph::transitive_rev_deps`: all crates from which `of` is
reachable, including `of` itself. -/
def CrateGraph.transitiveRevDeps (g : CrateGraph) (of : Nat) : List Nat :=
  g.transRevDepsLoop g.fuelBound [of] [of]

/-- The recursive `go` of `crates_in_topological_order`: post-order DFS over
the dependency edges, sharing the visited set; a crate is appended to the
result only after all of its dependencies.  State is `(visited, res)`. -/
def CrateGraph.topoGo (g : CrateGraph) :
    Nat → Nat → List Nat × List Nat → List Nat × List Nat
  | 0, _, st => st
  | fuel + 1, source, st =>
    if source ∈ st.1 then st
    else
      let st' := (g.succList source).foldl
        (fun st d => g.topoGo fuel d st) (source :: st.1, st.2)
      (st'.1, st'.2 ++ [source])

/-- `CrateGraph::crates_in_topological_order`: run `go` from every crate in
arena order, with a shared visited set. -/
def CrateGraph.cratesInTopologicalOrder (g : CrateGraph) : List Nat :=
  (g.keys.foldl (fun st k => g.topoGo (g.arena.length + 1) k st) ([], [])).2

/-- `CrateId::shift`: shift an identifier by `amount`. -/
def shiftId (amount id : Nat) : Nat := id + amount

/-- Shift a crate record: every dependency target moves by `amount`. -/
def shiftData (amount : Nat) (d : CrateData) : CrateData :=
  { d with dependencies :=
      d.dependencies.map (fun dep => { dep with crate_id := shiftId amount dep.crate_id }) }

/-- `CrateGraph::extend`: disjoint-union merge; the ids of `other` (keys and
edge targets) are shifted by the receiver's size, which is returned. -/
def CrateGraph.extend (g other : CrateGraph) : Nat × CrateGraph :=
  let start := g.arena.length
  (start,
    ⟨other.arena.foldl (fun a p => insertKV a (shiftId start p.1) (shiftData start p.2))
      g.arena⟩)

/-- `CrateGraph::hacky_find_crate`: the first crate (in iteration order)
whose display name dereferences to `name`. -/
def CrateGraph.hackyFindCrate (g : CrateGraph) (name : String) : Option Nat :=
  g.keys.find? (fun c =>
    decide (((g.lookupId c).bind (fun d => d.display_name)).map
      (fun dn => dn.crate_name) = some name))

/-- `CrateGraph::patch_cfg_if`: if both a `cfg_if` crate and a `std` crate
exist, clear `cfg_if`'s dependencies and append the edge
`std -> cfg_if` (named `cfg_if`) to `std`; report whether the patch fired. -/
def CrateGraph.patchCfgIf (g : CrateGraph) : Bool × CrateGraph :=
  match g.hackyFindCrate ("cfg_if"), g.hackyFindCrate ("std") with
  | some cfgIf, some std =>
    let g1 := g.updateCrate cfgIf (fun d => { d with dependencies := [] })
    let g2 := g1.updateCrate std (fun d =>
      { d with dependencies := d.dependencies ++ [{ crate_id := cfgIf, name := "cfg_if" }] })
    (true, g2)
  | _, _ => (false, g)

/-- Executable acyclicity check (for witnesses): no dependency edge's target
reaches its source, tested with `dfs_find`. -/
def CrateGraph.acyclicCheck (g : CrateGraph) : Bool :=
  g.arena.all (fun p =>
    p.2.dependencies.all (fun dep => ! g.dfsFindB p.1 dep.crate_id))

/-- The graphs reachable from the empty graph through the public mutating
interface.  `add_dep` is recorded only for in-arena endpoints: with an
out-of-arena endpoint the Rust call panics while indexing and never yields a
graph. -/
inductive Built : CrateGraph → Prop where
  | empty : Built ⟨[]⟩
  | addRoot {g fid ed dn cfg pcfg env p} : Built g →
      g.addCrateRoot fid ed dn cfg pcfg env = some p → Built p.2
  | addDepStep {g f n t} : Built g → f ∈ g.keys → t ∈ g.keys →
      Built (g.addDep f n t).2
  | ext {g h} : Built g → Built h → Built (g.extend h).2

/-- Every dependency of a member of the result list appears strictly before
it. -/
def ResClosed (g : CrateGraph) (res : List Nat) : Prop :=
  ∀ u ∈ res, ∀ v ∈ g.succList u, ∃ l1 l2, res = l1 ++ u :: l2 ∧ v ∈ l1

/-- Shifting the ids of a whole arena, as `extend` does element-wise. -/
def shiftList (amount : Nat) (l : List (Nat × CrateData)) : List (Nat × CrateData) :=
  l.map (fun p => (shiftId amount p.1, shiftData amount p.2))

/-- The dereferenced display name of a crate (`display_name.as_deref()`). -/
def CrateGraph.dispOf (g : CrateGraph) (c : Nat) : Option String :=
  ((g.lookupId c).bind (fun d => d.display_name)).map (fun dn => dn.crate_name)

/-! ## Change application (`crates/base_db/src/change.rs`) -/

/-- `salsa::Durability`: the two tiers used by `change.rs`. -/
inductive Durability where
  | low
  | high
deriving DecidableEq, Repr

/-- `SourceRoot`: the library flag plus the file set (only the iterable file
ids of the `FileSet` matter here; the path maps are unused by `apply`). -/
structure SourceRoot where
  is_library : Bool
  file_set : List Nat
deriving DecidableEq, Repr

/-- The `durability` helper of `change.rs`: library roots are durable, local
roots are not. -/
def durability (source_root : SourceRoot) : Durability :=
  if source_root.is_library then Durability.high else Durability.low

/-- The slice of the `SourceDatabaseExt` store that `Change::apply` touches.
Every `set_*_with_durability` call is recorded together with its durability
tag. -/
structure DB where
  fileSourceRoot : Nat → Option (Nat × Durability)
  sourceRoot : Nat → Option (SourceRoot × Durability)
  fileText : Nat → Option (String × Durability)
  crateGraph : Option (CrateGraph × Durability)

/-- `set_file_source_root_with_durability`. -/
def DB.setFileSourceRoot (db : DB) (fid rid : Nat) (d : Durability) : DB :=
  { db with fileSourceRoot := fun x => if x = fid then some (rid, d) else db.fileSourceRoot x }

/-- `set_source_root_with_durability`. -/
def DB.setSourceRoot (db : DB) (rid : Nat) (root : SourceRoot) (d : Durability) : DB :=
  { db with sourceRoot := fun x => if x = rid then some (root, d) else db.sourceRoot x }

/-- `set_file_text_with_durability`. -/
def DB.setFileText (db : DB) (fid : Nat) (text : String) (d : Durability) : DB :=
  { db with fileText := fun x => if x = fid then some (text, d) else db.fileText x }

/-- `set_crate_graph_with_durability`. -/
def DB.setCrateGraph (db : DB) (g : CrateGraph) (d : Durability) : DB :=
  { db with crateGraph := some (g, d) }

/-- `Change`: an optional source-root replacement, the ordered file-text
edits, and an optional crate-graph replacement. -/
structure Change where
  roots : Option (List SourceRoot)
  files_changed : List (Nat × Option String)
  crate_graph : Option CrateGraph

/-- `Change::apply`, translated clause by clause: (1) install the roots (if
present) in enumeration order, recording every file→root assignment and every
root at that root's durability; (2) for each file edit, look up the file's
current source root to pick the durability and store the text (absent text
becomes the empty string); (3) install the crate graph (if present) at high
durability.  The read of an unset `file_source_root`/`source_root` input
would panic in salsa; it is modelled as `none`. -/
def Change.apply (c : Change) (db : DB) : Option DB :=
  let db1 :=
    match c.roots with
    | none => db
    | some roots =>
      (roots.enum).foldl (fun (acc : DB) (pair : Nat × SourceRoot) =>
        let root_id := pair.1
        let root := pair.2
        let dur := durability root
        let acc := root.file_set.foldl
          (fun (acc2 : DB) (file_id : Nat) => acc2.setFileSourceRoot file_id root_id dur) acc
        acc.setSourceRoot root_id root dur) db
  let db2 := c.files_changed.foldlM (fun acc ft => do
    let sr ← acc.fileSourceRoot ft.1
    let root ← acc.sourceRoot sr.1
    let dur := durability root.1
    pure (acc.setFileText ft.1 (ft.2.getD ("")) dur)) db1
  db2.map (fun acc =>
    match c.crate_graph with
    | none => acc
    | some graph => acc.setCrateGraph graph Durability.high)

/-- Written from the spec, step 1 (§4.4): "for each root, classify its
durability (library → high durability, local → low durability); for every
file in that root, record the file→root assignment at that durability;
record the root itself at that durability.  Root identifiers are assigned by
enumeration order over the replacement list (dense, zero-based)". -/
def specRootsStep (roots : Option (List SourceRoot)) (db : DB) : DB :=
  match roots with
  | none => db
  | some rs =>
    (rs.enum).foldl (fun (acc : DB) (pair : Nat × SourceRoot) =>
      let dur := if pair.2.is_library then Durability.high else Durability.low
      let acc := pair.2.file_set.foldl
        (fun (acc2 : DB) (file_id : Nat) => acc2.setFileSourceRoot file_id pair.1 dur) acc
      acc.setSourceRoot pair.1 pair.2 dur) db

/-- Written from the spec, step 2 (§4.4): "for each `(file, optional text)`
edit, in list order: look up that file's current source root to determine the
durability to tag this specific text update with; substitute absent text with
empty text". -/
def specFilesStep (files : List (Nat × Option String)) (db : DB) : Option DB :=
  files.foldlM (fun acc ft => do
    let sr ← acc.fileSourceRoot ft.1
    let root ← acc.sourceRoot sr.1
    let dur := if root.1.is_library then Durability.high else Durability.low
    pure (acc.setFileText ft.1 (ft.2.getD ("")) dur)) db

/-- Written from the spec, step 3 (§4.4): "if a compilation-unit-graph
replacement is present, install it at high durability". -/
def specGraphStep (graph : Option CrateGraph) (db : DB) : DB :=
  match graph with
  | none => db
  | some g => db.setCrateGraph g Durability.high

/-- The spec's description of `apply`: the three steps in the fixed order
roots, then file texts, then crate graph. -/
def specApplyChange (c : Change) (db : DB) : Option DB :=
  (specFilesStep c.files_changed (specRootsStep c.roots db)).map
    (specGraphStep c.crate_graph)

/-! ## Concrete example graphs (used by the witnesses) -/

/-- A crate record with default fields and the given dependency list. -/
def exData (deps : List Dependency) : CrateData :=
  CrateData.mk 0 Edition.edition2018 none ⟨[]⟩ ⟨[]⟩ [] deps

/-- A two-crate graph with one edge `0 -> 1`. -/
def exG2 : CrateGraph :=
  ⟨[(0, exData [{ crate_id := 1, name := "dep" }]), (1, exData [])]⟩

/-- A crate record with a display name. -/
def exNamed (s : String) (deps : List Dependency) : CrateData :=
  CrateData.mk 0 Edition.edition2018 (some ⟨s, s⟩) ⟨[]⟩ ⟨[]⟩ [] deps

/-- A graph containing a `cfg_if` crate and a `std` crate. -/
def exG9 : CrateGraph :=
  ⟨[(0, exNamed ("cfg_if") [{ crate_id := 1, name := "dep" }]), (1, exNamed ("std") [])]⟩

/-! ## Helper lemmas: arena access -/

theorem mem_keys_iff_lookup_isSome (g : CrateGraph) (c : Nat) :
    c ∈ g.keys ↔ (g.lookupId c).isSome := by
  unfold CrateGraph.keys CrateGraph.lookupId
  constructor
  · intro hc
    rcases List.mem_map.mp hc with ⟨p, hp, hpc⟩
    have : ∃ q, q ∈ g.arena ∧ (fun q => decide (q.1 = c)) q = true :=
      ⟨p, hp, by simp [hpc]⟩
    rcases List.find?_isSome.mpr this |> Option.isSome_iff_exists.mp with ⟨q, hq⟩
    simp [hq]
  · intro h
    cases hfind : g.arena.find? (fun p => decide (p.1 = c)) with
    | none => rw [hfind] at h; simp [CrateGraph.lookupId] at h
    | some p =>
      have hmem := List.mem_of_find?_eq_some hfind
      have hprop := List.find?_some hfind
      have : p.1 = c := of_decide_eq_true hprop
      exact List.mem_map.mpr ⟨p, hmem, this⟩

theorem lookup_eq_some_of_mem_nodup (g : CrateGraph) (hnd : g.keys.Nodup)
    {c : Nat} {d : CrateData} (h : (c, d) ∈ g.arena) : g.lookupId c = some d := by
  unfold CrateGraph.lookupId
  rcases gs : g with ⟨arena⟩
  subst gs
  unfold CrateGraph.keys at hnd
  induction arena with
  | nil => cases h
  | cons p ps ih =>
    rcases List.mem_cons.mp h with rfl | h'
    · rw [List.find?_cons_of_pos _ (by simp)]
    · simp only [List.map_cons, List.nodup_cons] at hnd
      have hne : p.1 ≠ c := by
        intro hc
        exact hnd.1 (List.mem_map.mpr ⟨(c, d), h', by simp [hc]⟩)
      rw [List.find?_cons_of_neg _ (by simpa using hne)]
      exact ih hnd.2 h'

theorem lookup_mem_arena (g : CrateGraph) {c : Nat} {d : CrateData}
    (h : g.lookupId c = some d) : (c, d) ∈ g.arena := by
  unfold CrateGraph.lookupId at h
  cases hfind : g.arena.find? (fun p => decide (p.1 = c)) with
  | none => rw [hfind] at h; cases h
  | some p =>
    rw [hfind] at h
    have hp : p.2 = d := by cases h; rfl
    have hmem := List.mem_of_find?_eq_some hfind
    have hprop : decide (p.1 = c) = true :=
      List.find?_some (p := fun (q : Nat × CrateData) => decide (q.1 = c)) hfind
    have hkey : p.1 = c := of_decide_eq_true hprop
    rw [← hkey, ← hp]
    exact hmem

theorem edgeRel_iff_mem_succList (g : CrateGraph) (u v : Nat) :
    g.edgeRel u v ↔ v ∈ g.succList u := by
  unfold CrateGraph.edgeRel CrateGraph.succList
  constructor
  · rintro ⟨d, hd, hv⟩
    rw [hd]
    exact hv
  · intro hv
    cases hl : g.lookupId u with
    | none => rw [hl] at hv; cases hv
    | some d =>
      rw [hl] at hv
      exact ⟨d, rfl, hv⟩

theorem succList_subset_keys (g : CrateGraph) (hwf : g.Wf) (u : Nat) :
    ∀ v ∈ g.succList u, v ∈ g.keys := by
  intro v hv
  unfold CrateGraph.succList at hv
  cases hl : g.lookupId u with
  | none => rw [hl] at hv; cases hv
  | some d =>
    rw [hl] at hv
    rcases List.mem_map.mp hv with ⟨dep, hdep, hdv⟩
    rw [← hdv]
    exact hwf.2.2.2 (u, d) (lookup_mem_arena g hl) dep hdep

theorem mem_keys_of_edgeRel (g : CrateGraph) {u v : Nat} (h : g.edgeRel u v) :
    u ∈ g.keys := by
  rcases h with ⟨d, hd, -⟩
  exact (mem_keys_iff_lookup_isSome g u).mpr (by simp [hd])

theorem keys_updateCrate (g : CrateGraph) (c : Nat) (f : CrateData → CrateData) :
    (g.updateCrate c f).keys = g.keys := by
  unfold CrateGraph.updateCrate CrateGraph.keys
  simp only [List.map_map]
  apply List.map_congr_left
  intro p _
  by_cases h : p.1 = c <;> simp [h]

theorem lookup_updateCrate_self (g : CrateGraph) (c : Nat) (f : CrateData → CrateData) :
    (g.updateCrate c f).lookupId c = (g.lookupId c).map f := by
  unfold CrateGraph.updateCrate CrateGraph.lookupId
  rcases gs : g with ⟨arena⟩
  clear gs
  induction arena with
  | nil => simp
  | cons p ps ih =>
    by_cases h : p.1 = c
    · simp only [List.map_cons, if_pos h]
      rw [List.find?_cons_of_pos _ (by simpa using h),
        List.find?_cons_of_pos _ (by simpa using h)]
      simp
    · simp only [List.map_cons, if_neg h]
      rw [List.find?_cons_of_neg _ (by simpa using h),
        List.find?_cons_of_neg _ (by simpa using h)]
      exact ih

theorem lookup_updateCrate_other (g : CrateGraph) (c c' : Nat)
    (f : CrateData → CrateData) (hne : c' ≠ c) :
    (g.updateCrate c f).lookupId c' = g.lookupId c' := by
  unfold CrateGraph.updateCrate CrateGraph.lookupId
  rcases gs : g with ⟨arena⟩
  clear gs
  induction arena with
  | nil => simp
  | cons p ps ih =>
    by_cases h : p.1 = c
    · have hne' : ¬ p.1 = c' := by rw [h]; exact fun hc => hne hc.symm
      simp only [List.map_cons, if_pos h]
      rw [List.find?_cons_of_neg _ (by simpa using hne'),
        List.find?_cons_of_neg _ (by simpa using hne')]
      exact ih
    · simp only [List.map_cons, if_neg h]
      by_cases h' : p.1 = c'
      · rw [List.find?_cons_of_pos _ (by simpa using h'),
          List.find?_cons_of_pos _ (by simpa using h')]
      · rw [List.find?_cons_of_neg _ (by simpa using h'),
          List.find?_cons_of_neg _ (by simpa using h')]
        exact ih

theorem reaches_of_edge (g : CrateGraph) {u v : Nat} (h : g.edgeRel u v) :
    g.Reaches u v :=
  Relation.ReflTransGen.single h

theorem reaches_refl (g : CrateGraph) (u : Nat) : g.Reaches u u :=
  Relation.ReflTransGen.refl

/-! ## Helper lemmas: depth-first search of `add_dep` -/

theorem card_sdiff_le_of_subset (U : Finset Nat) {v w : List Nat} (h : v ⊆ w) :
    (U \ w.toFinset).card ≤ (U \ v.toFinset).card := by
  apply Finset.card_le_card
  intro x hx
  rw [Finset.mem_sdiff, List.mem_toFinset] at hx ⊢
  exact ⟨hx.1, fun hc => hx.2 (h hc)⟩

theorem card_sdiff_cons_lt (U : Finset Nat) {v : List Nat} {a : Nat}
    (ha : a ∈ U) (hav : a ∉ v) :
    (U \ (a :: v).toFinset).card < (U \ v.toFinset).card := by
  rw [List.toFinset_cons, Finset.sdiff_insert]
  exact Finset.card_erase_lt_of_mem (Finset.mem_sdiff.mpr ⟨ha, by simpa using hav⟩)

theorem dfsVisit_spec (g : CrateGraph) (target : Nat) (hwf : g.Wf) :
    ∀ (fuel : Nat) (frm : Nat) (visited : List Nat),
      frm ∈ g.keys →
      (g.keys.toFinset \ visited.toFinset).card < fuel →
      visited ⊆ (g.dfsVisit target fuel frm visited).2 ∧
      (∀ x ∈ (g.dfsVisit target fuel frm visited).2, x ∈ visited ∨ x ∈ g.keys) ∧
      frm ∈ (g.dfsVisit target fuel frm visited).2 ∧
      ((g.dfsVisit target fuel frm visited).1 = true → g.Reaches frm target) ∧
      ((g.dfsVisit target fuel frm visited).1 = false →
        (∀ x ∈ (g.dfsVisit target fuel frm visited).2, x ∉ visited →
          x ≠ target ∧ ∀ z ∈ g.succList x, z ∈ (g.dfsVisit target fuel frm visited).2)) := by
  intro fuel
  induction fuel with
  | zero =>
    intro frm visited _ hcard
    omega
  | succ fuel ih =>
    intro frm visited hfrm hcard
    by_cases hv : frm ∈ visited
    · simp only [CrateGraph.dfsVisit, if_pos hv]
      refine ⟨fun x hx => hx, fun x hx => Or.inl hx, hv, ?_, ?_⟩
      · intro h; cases h
      · intro _ x hx hxv
        exact absurd hx hxv
    · by_cases ht : target = frm
      · simp only [CrateGraph.dfsVisit, if_neg hv, if_pos ht]
        refine ⟨fun x hx => List.mem_cons_of_mem frm hx,
          fun x hx => ?_, List.mem_cons_self frm visited, fun _ => ?_, fun h => ?_⟩
        · rcases List.mem_cons.mp hx with rfl | hx'
          · exact Or.inr hfrm
          · exact Or.inl hx'
        · rw [ht]
          exact reaches_refl g frm
        · cases h
      · -- the loop over the dependency edges of `frm`
        have aux : ∀ (l : List Nat) (p₀ : Bool × List Nat),
            (∀ y ∈ l, y ∈ g.keys) →
            (g.keys.toFinset \ p₀.2.toFinset).card < fuel →
            p₀.2 ⊆ (l.foldl (fun p c => if p.1 then p
              else g.dfsVisit target fuel c p.2) p₀).2 ∧
            (∀ x ∈ (l.foldl (fun p c => if p.1 then p
              else g.dfsVisit target fuel c p.2) p₀).2, x ∈ p₀.2 ∨ x ∈ g.keys) ∧
            (p₀.1 = true → (l.foldl (fun p c => if p.1 then p
              else g.dfsVisit target fuel c p.2) p₀) = p₀) ∧
            ((l.foldl (fun p c => if p.1 then p
              else g.dfsVisit target fuel c p.2) p₀).1 = true →
              p₀.1 = true ∨ ∃ y ∈ l, g.Reaches y target) ∧
            ((l.foldl (fun p c => if p.1 then p
              else g.dfsVisit target fuel c p.2) p₀).1 = false →
              (∀ y ∈ l, y ∈ (l.foldl (fun p c => if p.1 then p
                else g.dfsVisit target fuel c p.2) p₀).2) ∧
              (∀ x ∈ (l.foldl (fun p c => if p.1 then p
                else g.dfsVisit target fuel c p.2) p₀).2, x ∉ p₀.2 →
                x ≠ target ∧ ∀ z ∈ g.succList x, z ∈ (l.foldl (fun p c => if p.1 then p
                  else g.dfsVisit target fuel c p.2) p₀).2)) := by
          intro l
          induction l with
          | nil =>
            intro p₀ _ _
            refine ⟨fun x hx => hx, fun x hx => Or.inl hx, fun _ => rfl, ?_, ?_⟩
            · intro h
              exact Or.inl h
            · intro _
              exact ⟨fun y hy => absurd hy (List.not_mem_nil y),
                fun x hx hxp => absurd hx hxp⟩
          | cons y l ihl =>
            intro p₀ hl hcard₀
            cases hb : p₀.1 with
            | true =>
              have hstep : (if p₀.1 then p₀ else g.dfsVisit target fuel y p₀.2) = p₀ := by
                rw [hb]; simp
              simp only [List.foldl_cons, hstep]
              obtain ⟨a1, a2, a3, a4, a5⟩ := ihl p₀ (fun z hz => hl z (List.mem_cons_of_mem y hz)) hcard₀
              have hq := a3 hb
              refine ⟨a1, a2, fun _ => hq, fun _ => Or.inl (by trivial), fun hf => ?_⟩
              rw [hq] at hf
              simp [hf] at hb
            | false =>
              have hstep : (if p₀.1 then p₀ else g.dfsVisit target fuel y p₀.2) =
                  g.dfsVisit target fuel y p₀.2 := by
                rw [hb]; simp
              simp only [List.foldl_cons, hstep]
              have hy : y ∈ g.keys := hl y (List.mem_cons_self y l)
              obtain ⟨c1, c2, c3, c4, c5⟩ := ih y p₀.2 hy hcard₀
              have hcard₁ : (g.keys.toFinset \
                  (g.dfsVisit target fuel y p₀.2).2.toFinset).card < fuel :=
                lt_of_le_of_lt (card_sdiff_le_of_subset _ c1) hcard₀
              obtain ⟨b1, b2, b3, b4, b5⟩ := ihl (g.dfsVisit target fuel y p₀.2)
                (fun z hz => hl z (List.mem_cons_of_mem y hz)) hcard₁
              refine ⟨fun x hx => b1 (c1 hx), ?_, ?_, ?_, ?_⟩
              · intro x hx
                rcases b2 x hx with hx' | hx'
                · exact c2 x hx'
                · exact Or.inr hx'
              · intro hc
                simp at hc
              · intro hq
                rcases b4 hq with hq' | ⟨z, hz, hzr⟩
                · exact Or.inr ⟨y, List.mem_cons_self y l, c4 hq'⟩
                · exact Or.inr ⟨z, List.mem_cons_of_mem y hz, hzr⟩
              · intro hq
                have hpc : (g.dfsVisit target fuel y p₀.2).1 = false := by
                  cases hpc : (g.dfsVisit target fuel y p₀.2).1 with
                  | false => rfl
                  | true =>
                    have hq3 := b3 hpc
                    rw [hq3] at hq
                    simp [hq] at hpc
                obtain ⟨b5a, b5b⟩ := b5 hq
                refine ⟨?_, ?_⟩
                · intro z hz
                  rcases List.mem_cons.mp hz with rfl | hz'
                  · exact b1 c3
                  · exact b5a z hz'
                · intro x hx hxp
                  by_cases hxc : x ∈ (g.dfsVisit target fuel y p₀.2).2
                  · obtain ⟨hxt, hxcl⟩ := c5 hpc x hxc hxp
                    exact ⟨hxt, fun z hz => b1 (hxcl z hz)⟩
                  · obtain ⟨hxt, hxcl⟩ := b5b x hx hxc
                    exact ⟨hxt, hxcl⟩
        have hfrmU : frm ∈ g.keys.toFinset := List.mem_toFinset.mpr hfrm
        have hcard' : (g.keys.toFinset \ (frm :: visited).toFinset).card < fuel := by
          have hlt := card_sdiff_cons_lt g.keys.toFinset hfrmU hv
          omega
        obtain ⟨a1, a2, a3, a4, a5⟩ := aux (g.succList frm) (false, frm :: visited)
          (succList_subset_keys g hwf frm) hcard'
        simp only [CrateGraph.dfsVisit, if_neg hv, if_neg ht]
        refine ⟨fun x hx => a1 (List.mem_cons_of_mem frm hx), ?_,
          a1 (List.mem_cons_self frm visited), ?_, ?_⟩
        · intro x hx
          rcases a2 x hx with hx' | hx'
          · rcases List.mem_cons.mp hx' with rfl | hx''
            · exact Or.inr hfrm
            · exact Or.inl hx''
          · exact Or.inr hx'
        · intro hq
          rcases a4 hq with hq' | ⟨y, hy, hyr⟩
          · cases hq'
          · exact Relation.ReflTransGen.head
              ((edgeRel_iff_mem_succList g frm y).mpr hy) hyr
        · intro hq x hx hxv
          obtain ⟨a5a, a5b⟩ := a5 hq
          by_cases hxf : x = frm
          · subst hxf
            refine ⟨fun hc => ht hc.symm, fun z hz => a5a z hz⟩
          · have hxp : x ∉ ((false, frm :: visited) : Bool × List Nat).2 := by
              intro hc
              rcases List.mem_cons.mp hc with hc' | hc'
              · exact hxf hc'
              · exact hxv hc'
            exact a5b x hx hxp

/-- `dfs_find` decides reachability on well-formed graphs. -/
theorem dfsFindB_iff (g : CrateGraph) (target frm : Nat) (hwf : g.Wf)
    (hfrm : frm ∈ g.keys) :
    g.dfsFindB target frm = true ↔ g.Reaches frm target := by
  have hcard : (g.keys.toFinset \ ([] : List Nat).toFinset).card < g.arena.length + 1 := by
    have h1 : g.keys.toFinset.card ≤ g.keys.length := g.keys.toFinset_card_le
    have h2 : g.keys.length = g.arena.length := by
      unfold CrateGraph.keys
      exact List.length_map _ _
    simpa using (by omega : g.keys.toFinset.card < g.arena.length + 1)
  obtain ⟨h1, h2, h3, h4, h5⟩ :=
    dfsVisit_spec g target hwf (g.arena.length + 1) frm [] hfrm hcard
  constructor
  · exact h4
  · intro hr
    by_contra hfalse
    have hf : (g.dfsVisit target (g.arena.length + 1) frm []).1 = false := by
      cases hb : (g.dfsVisit target (g.arena.length + 1) frm []).1 with
      | false => rfl
      | true => exact absurd hb hfalse
    have hcl := h5 hf
    have hmem : ∀ x, g.Reaches frm x → x ∈ (g.dfsVisit target (g.arena.length + 1) frm []).2 := by
      intro x hx
      induction hx with
      | refl => exact h3
      | tail hab hbc ihx =>
        rename_i b c
        have := (hcl b ihx (List.not_mem_nil b)).2
        exact this c ((edgeRel_iff_mem_succList g b c).mp hbc)
    have htmem := hmem target hr
    exact (hcl target htmem (List.not_mem_nil target)).1 rfl

/-! ## Helper lemmas: `add_dep` -/

theorem edgeRel_addEdge_iff (g : CrateGraph) (frm t : Nat) (name : String)
    (hfrm : frm ∈ g.keys) (u v : Nat) :
    (g.updateCrate frm (fun d =>
      { d with dependencies := d.dependencies ++ [{ crate_id := t, name := name }] })).edgeRel u v ↔
    g.edgeRel u v ∨ (u = frm ∧ v = t) := by
  by_cases hu : u = frm
  · subst hu
    rcases Option.isSome_iff_exists.mp ((mem_keys_iff_lookup_isSome g u).mp hfrm) with ⟨d, hd⟩
    unfold CrateGraph.edgeRel
    rw [lookup_updateCrate_self, hd]
    constructor
    · rintro ⟨d', hd', hv⟩
      have hdd : ({ d with dependencies :=
          d.dependencies ++ [{ crate_id := t, name := name }] } : CrateData) = d' := by
        simpa using hd'
      subst hdd
      simp only [List.map_append, List.mem_append] at hv
      rcases hv with hv | hv
      · exact Or.inl ⟨d, rfl, hv⟩
      · simp only [List.map_cons, List.map_nil, List.mem_singleton] at hv
        exact Or.inr ⟨rfl, hv⟩
    · rintro (⟨d'', hd'', hv⟩ | ⟨-, rfl⟩)
      · have hdd : d = d'' := by simpa using hd''
        subst hdd
        refine ⟨_, rfl, ?_⟩
        simp only [List.map_append, List.mem_append]
        exact Or.inl hv
      · refine ⟨_, rfl, ?_⟩
        simp
  · unfold CrateGraph.edgeRel
    rw [lookup_updateCrate_other g frm u _ hu]
    constructor
    · intro h
      exact Or.inl h
    · rintro (h | ⟨hc, -⟩)
      · exact h
      · exact absurd hc hu

theorem reaches_addEdge_decomp (g : CrateGraph) (frm t : Nat) (name : String)
    (hfrm : frm ∈ g.keys) (hcyc : ¬ g.Reaches t frm) {a b : Nat}
    (h : (g.updateCrate frm (fun d =>
      { d with dependencies := d.dependencies ++ [{ crate_id := t, name := name }] })).Reaches a b) :
    g.Reaches a b ∨ (g.Reaches a frm ∧ g.Reaches t b) := by
  induction h using Relation.ReflTransGen.head_induction_on with
  | refl => exact Or.inl (reaches_refl g b)
  | head h' hrest ihp =>
    rename_i x c
    rcases (edgeRel_addEdge_iff g frm t name hfrm x c).mp h' with he | ⟨hxf, hct⟩
    · rcases ihp with hcb | ⟨hcf, htb⟩
      · exact Or.inl (Relation.ReflTransGen.head he hcb)
      · exact Or.inr ⟨Relation.ReflTransGen.head he hcf, htb⟩
    · subst hxf
      subst hct
      rcases ihp with hcb | ⟨hcf, htb⟩
      · exact Or.inr ⟨reaches_refl g x, hcb⟩
      · exact absurd hcf hcyc

theorem acyclic_addEdge (g : CrateGraph) (frm t : Nat) (name : String)
    (hfrm : frm ∈ g.keys) (hac : g.Acyclic) (hcyc : ¬ g.Reaches t frm) :
    (g.updateCrate frm (fun d =>
      { d with dependencies := d.dependencies ++ [{ crate_id := t, name := name }] })).Acyclic := by
  intro u v huv hvu
  rcases (edgeRel_addEdge_iff g frm t name hfrm u v).mp huv with he | ⟨huf, hvt⟩
  · rcases reaches_addEdge_decomp g frm t name hfrm hcyc hvu with hr | ⟨hvf, htu⟩
    · exact hac u v he hr
    · exact hcyc (Relation.ReflTransGen.trans (Relation.ReflTransGen.tail htu he) hvf)
  · rcases reaches_addEdge_decomp g frm t name hfrm hcyc hvu with hr | ⟨hvf, -⟩
    · rw [hvt, huf] at hr
      exact hcyc hr
    · rw [hvt] at hvf
      exact hcyc hvf

/-! ## Helper lemmas: transitive dependency closures -/

theorem transDepsLoop_spec (g : CrateGraph) (hwf : g.Wf) (of : Nat) :
    ∀ (fuel : Nat) (wl vis : List Nat),
      (∀ x ∈ wl, g.Reaches of x) →
      (∀ x ∈ vis, g.Reaches of x) →
      (∀ x ∈ vis, x ∈ g.keys) →
      (∀ x ∈ wl, x ∈ g.keys) →
      (∀ x ∈ vis, ∀ y ∈ g.succList x, y ∈ vis ∨ y ∈ wl) →
      vis.Nodup →
      wl.length + ∑ k ∈ g.keys.toFinset \ vis.toFinset, (1 + (g.succList k).length) < fuel →
      (∀ x ∈ vis, x ∈ g.transDepsLoop fuel wl vis) ∧
      (∀ x ∈ wl, x ∈ g.transDepsLoop fuel wl vis) ∧
      (∀ x ∈ g.transDepsLoop fuel wl vis, g.Reaches of x) ∧
      (∀ x ∈ g.transDepsLoop fuel wl vis, ∀ y ∈ g.succList x,
        y ∈ g.transDepsLoop fuel wl vis) ∧
      (g.transDepsLoop fuel wl vis).Nodup ∧
      (∀ x ∈ g.transDepsLoop fuel wl vis, x ∈ g.keys) := by
  intro fuel
  induction fuel with
  | zero =>
    intro wl vis _ _ _ _ _ _ hlt
    omega
  | succ fuel ih =>
    intro wl vis hwlR hvisR hvisK hwlK hclosed hnd hlt
    match hwl : wl with
    | [] =>
      simp only [CrateGraph.transDepsLoop]
      refine ⟨fun x hx => hx, fun x hx => absurd hx (List.not_mem_nil x),
        hvisR, ?_, hnd, hvisK⟩
      intro x hx y hy
      rcases hclosed x hx y hy with h | h
      · exact h
      · exact absurd h (List.not_mem_nil y)
    | k :: rest =>
      by_cases hk : k ∈ vis
      · simp only [CrateGraph.transDepsLoop, if_pos hk]
        have hstep := ih rest vis
          (fun x hx => hwlR x (List.mem_cons_of_mem k hx))
          hvisR hvisK
          (fun x hx => hwlK x (List.mem_cons_of_mem k hx))
          (fun x hx y hy => by
            rcases hclosed x hx y hy with h | h
            · exact Or.inl h
            · rcases List.mem_cons.mp h with rfl | h'
              · exact Or.inl hk
              · exact Or.inr h')
          hnd
          (by simp only [List.length_cons] at hlt; omega)
        obtain ⟨s1, s2, s3, s4, s5, s6⟩ := hstep
        refine ⟨s1, ?_, s3, s4, s5, s6⟩
        intro x hx
        rcases List.mem_cons.mp hx with rfl | hx'
        · exact s1 x hk
        · exact s2 x hx'
      · simp only [CrateGraph.transDepsLoop, if_neg hk]
        have hkK : k ∈ g.keys := hwlK k (List.mem_cons_self k rest)
        have hkR : g.Reaches of k := hwlR k (List.mem_cons_self k rest)
        have hsum : ∑ j ∈ g.keys.toFinset \ vis.toFinset, (1 + (g.succList j).length) =
            (1 + (g.succList k).length) +
              ∑ j ∈ g.keys.toFinset \ (k :: vis).toFinset, (1 + (g.succList j).length) := by
          rw [List.toFinset_cons, Finset.sdiff_insert]
          exact (Finset.add_sum_erase _ _
            (Finset.mem_sdiff.mpr ⟨List.mem_toFinset.mpr hkK, by simpa using hk⟩)).symm
        have hstep := ih ((g.succList k).reverse ++ rest) (k :: vis)
          (fun x hx => by
            rcases List.mem_append.mp hx with hx' | hx'
            · exact Relation.ReflTransGen.tail hkR
                ((edgeRel_iff_mem_succList g k x).mpr (List.mem_reverse.mp hx'))
            · exact hwlR x (List.mem_cons_of_mem k hx'))
          (fun x hx => by
            rcases List.mem_cons.mp hx with rfl | hx'
            · exact hkR
            · exact hvisR x hx')
          (fun x hx => by
            rcases List.mem_cons.mp hx with rfl | hx'
            · exact hkK
            · exact hvisK x hx')
          (fun x hx => by
            rcases List.mem_append.mp hx with hx' | hx'
            · exact succList_subset_keys g hwf k x (List.mem_reverse.mp hx')
            · exact hwlK x (List.mem_cons_of_mem k hx'))
          (fun x hx y hy => by
            rcases List.mem_cons.mp hx with rfl | hx'
            · exact Or.inr (List.mem_append.mpr (Or.inl (List.mem_reverse.mpr hy)))
            · rcases hclosed x hx' y hy with h | h
              · exact Or.inl (List.mem_cons_of_mem k h)
              · rcases List.mem_cons.mp h with rfl | h'
                · exact Or.inl (List.mem_cons_self y vis)
                · exact Or.inr (List.mem_append.mpr (Or.inr h')))
          (List.nodup_cons.mpr ⟨hk, hnd⟩)
          (by
            simp only [List.length_append, List.length_reverse, List.length_cons] at hlt ⊢
            omega)
        obtain ⟨s1, s2, s3, s4, s5, s6⟩ := hstep
        refine ⟨fun x hx => s1 x (List.mem_cons_of_mem k hx), ?_, s3, s4, s5, s6⟩
        intro x hx
        rcases List.mem_cons.mp hx with rfl | hx'
        · exact s1 x (List.mem_cons_self x vis)
        · exact s2 x (List.mem_append.mpr (Or.inr hx'))

theorem fuelBound_gt (g : CrateGraph) (hwf : g.Wf) (vis : List Nat) (extra : Nat)
    (hextra : extra ≤ 1) :
    extra + ∑ k ∈ g.keys.toFinset \ vis.toFinset, (1 + (g.succList k).length) <
      g.fuelBound := by
  have hsub : g.keys.toFinset \ vis.toFinset ⊆ g.keys.toFinset := Finset.sdiff_subset
  have hle : ∑ k ∈ g.keys.toFinset \ vis.toFinset, (1 + (g.succList k).length) ≤
      ∑ k ∈ g.keys.toFinset, (1 + (g.succList k).length) :=
    Finset.sum_le_sum_of_subset hsub
  have heq : ∑ k ∈ g.keys.toFinset, (1 + (g.succList k).length) =
      g.arena.length + (g.arena.map (fun p => p.2.dependencies.length)).sum := by
    rw [List.sum_toFinset _ hwf.1]
    have hmap : g.keys.map (fun k => 1 + (g.succList k).length) =
        g.arena.map (fun p => 1 + p.2.dependencies.length) := by
      unfold CrateGraph.keys
      rw [List.map_map]
      apply List.map_congr_left
      intro p hp
      have hlk : g.lookupId p.1 = some p.2 :=
        lookup_eq_some_of_mem_nodup g hwf.1 (by
          have : p = (p.1, p.2) := rfl
          rw [← this]
          exact hp)
      simp only [Function.comp_apply, CrateGraph.succList, hlk]
      rw [List.length_map]
    rw [hmap]
    have hsplit : (g.arena.map (fun p => 1 + p.2.dependencies.length)).sum =
        (g.arena.map (fun _ => 1)).sum +
          (g.arena.map (fun p => p.2.dependencies.length)).sum := by
      induction g.arena with
      | nil => rfl
      | cons p ps ihp =>
        simp only [List.map_cons, List.sum_cons, ihp]
        omega
    rw [hsplit]
    have hones : (g.arena.map (fun _ => 1)).sum = g.arena.length := by
      induction g.arena with
      | nil => rfl
      | cons p ps ihp =>
        simp only [List.map_cons, List.sum_cons, ihp, List.length_cons]
        omega
    rw [hones]
  unfold CrateGraph.fuelBound
  omega

theorem mem_transitiveDeps_iff (g : CrateGraph) (hwf : g.Wf) (of : Nat)
    (hof : of ∈ g.keys) (x : Nat) :
    x ∈ g.transitiveDeps of ↔ g.Reaches of x := by
  obtain ⟨s1, s2, s3, s4, s5, s6⟩ := transDepsLoop_spec g hwf of g.fuelBound [of] []
    (fun y hy => by
      rcases List.mem_cons.mp hy with rfl | hy'
      · exact reaches_refl g y
      · exact absurd hy' (List.not_mem_nil y))
    (fun y hy => absurd hy (List.not_mem_nil y))
    (fun y hy => absurd hy (List.not_mem_nil y))
    (fun y hy => by
      rcases List.mem_cons.mp hy with rfl | hy'
      · exact hof
      · exact absurd hy' (List.not_mem_nil y))
    (fun y hy => absurd hy (List.not_mem_nil y))
    List.nodup_nil
    (by simpa using fuelBound_gt g hwf [] 1 (le_refl 1))
  constructor
  · exact s3 x
  · intro hr
    induction hr with
    | refl => exact s2 of (List.mem_cons_self of [])
    | tail hab hbc ihr =>
      rename_i b c
      exact s4 b ihr c ((edgeRel_iff_mem_succList g b c).mp hbc)

theorem transitiveDeps_nodup (g : CrateGraph) (hwf : g.Wf) (of : Nat)
    (hof : of ∈ g.keys) : (g.transitiveDeps of).Nodup := by
  obtain ⟨-, -, -, -, s5, -⟩ := transDepsLoop_spec g hwf of g.fuelBound [of] []
    (fun y hy => by
      rcases List.mem_cons.mp hy with rfl | hy'
      · exact reaches_refl g y
      · exact absurd hy' (List.not_mem_nil y))
    (fun y hy => absurd hy (List.not_mem_nil y))
    (fun y hy => absurd hy (List.not_mem_nil y))
    (fun y hy => by
      rcases List.mem_cons.mp hy with rfl | hy'
      · exact hof
      · exact absurd hy' (List.not_mem_nil y))
    (fun y hy => absurd hy (List.not_mem_nil y))
    List.nodup_nil
    (by simpa using fuelBound_gt g hwf [] 1 (le_refl 1))
  exact s5

theorem mem_invSucc_iff (g : CrateGraph) (x y : Nat) :
    y ∈ g.invSucc x ↔
      ∃ p ∈ g.arena, p.1 = y ∧ x ∈ p.2.dependencies.map (fun dep => dep.crate_id) := by
  unfold CrateGraph.invSucc
  rw [List.mem_flatten]
  constructor
  · rintro ⟨l, hl, hy⟩
    rcases List.mem_map.mp hl with ⟨p, hp, hpl⟩
    subst hpl
    rcases List.mem_filterMap.mp hy with ⟨dep, hdep, hif⟩
    by_cases hdx : dep.crate_id = x
    · rw [if_pos hdx] at hif
      refine ⟨p, hp, by cases hif; rfl, ?_⟩
      exact List.mem_map.mpr ⟨dep, hdep, hdx⟩
    · rw [if_neg hdx] at hif
      cases hif
  · rintro ⟨p, hp, hpy, hx⟩
    refine ⟨p.2.dependencies.filterMap (fun dep =>
      if dep.crate_id = x then some p.1 else none),
      List.mem_map.mpr ⟨p, hp, rfl⟩, ?_⟩
    rcases List.mem_map.mp hx with ⟨dep, hdep, hdx⟩
    exact List.mem_filterMap.mpr ⟨dep, hdep, by rw [if_pos hdx, hpy]⟩

theorem invSucc_subset_keys (g : CrateGraph) (x : Nat) :
    ∀ y ∈ g.invSucc x, y ∈ g.keys := by
  intro y hy
  rcases (mem_invSucc_iff g x y).mp hy with ⟨p, hp, hpy, -⟩
  exact List.mem_map.mpr ⟨p, hp, hpy⟩

theorem mem_invSucc_iff_edgeRel (g : CrateGraph) (hnd : g.keys.Nodup) (x y : Nat) :
    y ∈ g.invSucc x ↔ g.edgeRel y x := by
  rw [mem_invSucc_iff]
  constructor
  · rintro ⟨p, hp, hpy, hx⟩
    refine ⟨p.2, ?_, hx⟩
    rw [← hpy]
    exact lookup_eq_some_of_mem_nodup g hnd (by
      have : p = (p.1, p.2) := rfl
      rw [← this]
      exact hp)
  · rintro ⟨d, hd, hx⟩
    exact ⟨(y, d), lookup_mem_arena g hd, rfl, hx⟩

theorem revFold_spec (g : CrateGraph) (U : Finset Nat) :
    ∀ (l : List Nat) (rd wl : List Nat),
      (∀ y ∈ l, y ∈ U) →
      (∀ x ∈ rd, x ∈ (l.foldl (fun q r =>
        if r ∈ q.1 then q else (r :: q.1, r :: q.2)) (rd, wl)).1) ∧
      (∀ x ∈ (l.foldl (fun q r =>
        if r ∈ q.1 then q else (r :: q.1, r :: q.2)) (rd, wl)).1, x ∈ rd ∨ x ∈ l) ∧
      (∀ x ∈ wl, x ∈ (l.foldl (fun q r =>
        if r ∈ q.1 then q else (r :: q.1, r :: q.2)) (rd, wl)).2) ∧
      (∀ x ∈ (l.foldl (fun q r =>
        if r ∈ q.1 then q else (r :: q.1, r :: q.2)) (rd, wl)).2, x ∈ wl ∨
          x ∈ (l.foldl (fun q r =>
            if r ∈ q.1 then q else (r :: q.1, r :: q.2)) (rd, wl)).1) ∧
      (∀ y ∈ l, y ∈ (l.foldl (fun q r =>
        if r ∈ q.1 then q else (r :: q.1, r :: q.2)) (rd, wl)).1) ∧
      (rd.Nodup → (l.foldl (fun q r =>
        if r ∈ q.1 then q else (r :: q.1, r :: q.2)) (rd, wl)).1.Nodup) ∧
      ((l.foldl (fun q r =>
        if r ∈ q.1 then q else (r :: q.1, r :: q.2)) (rd, wl)).2.length +
          (U \ (l.foldl (fun q r =>
            if r ∈ q.1 then q else (r :: q.1, r :: q.2)) (rd, wl)).1.toFinset).card ≤
        wl.length + (U \ rd.toFinset).card) ∧
      (∀ x ∈ (l.foldl (fun q r =>
        if r ∈ q.1 then q else (r :: q.1, r :: q.2)) (rd, wl)).1, x ∉ rd →
          x ∈ (l.foldl (fun q r =>
            if r ∈ q.1 then q else (r :: q.1, r :: q.2)) (rd, wl)).2) := by
  intro l
  induction l with
  | nil =>
    intro rd wl _
    refine ⟨fun x hx => hx, fun x hx => Or.inl hx, fun x hx => hx,
      fun x hx => Or.inl hx, fun y hy => absurd hy (List.not_mem_nil y),
      fun h => h, le_refl _, fun x hx hxr => absurd hx hxr⟩
  | cons r l ihl =>
    intro rd wl hlU
    by_cases hr : r ∈ rd
    · have hstep : ((if r ∈ rd then (rd, wl) else (r :: rd, r :: wl)) :
          List Nat × List Nat) = (rd, wl) := if_pos hr
      simp only [List.foldl_cons, hstep]
      obtain ⟨f1, f2, f3, f4, f5, f6, f7, f9⟩ :=
        ihl rd wl (fun y hy => hlU y (List.mem_cons_of_mem r hy))
      refine ⟨f1, ?_, f3, f4, ?_, f6, f7, f9⟩
      · intro x hx
        rcases f2 x hx with h | h
        · exact Or.inl h
        · exact Or.inr (List.mem_cons_of_mem r h)
      · intro y hy
        rcases List.mem_cons.mp hy with rfl | hy'
        · exact f1 y hr
        · exact f5 y hy'
    · have hstep : ((if r ∈ rd then (rd, wl) else (r :: rd, r :: wl)) :
          List Nat × List Nat) = (r :: rd, r :: wl) := if_neg hr
      simp only [List.foldl_cons, hstep]
      obtain ⟨f1, f2, f3, f4, f5, f6, f7, f9⟩ :=
        ihl (r :: rd) (r :: wl) (fun y hy => hlU y (List.mem_cons_of_mem r hy))
      have hrU : r ∈ U := hlU r (List.mem_cons_self r l)
      refine ⟨fun x hx => f1 x (List.mem_cons_of_mem r hx), ?_, ?_, ?_, ?_, ?_, ?_, ?_⟩
      · intro x hx
        rcases f2 x hx with h | h
        · rcases List.mem_cons.mp h with rfl | h'
          · exact Or.inr (List.mem_cons_self x l)
          · exact Or.inl h'
        · exact Or.inr (List.mem_cons_of_mem r h)
      · intro x hx
        exact f3 x (List.mem_cons_of_mem r hx)
      · intro x hx
        rcases f4 x hx with h | h
        · rcases List.mem_cons.mp h with rfl | h'
          · exact Or.inr (f1 x (List.mem_cons_self x rd))
          · exact Or.inl h'
        · exact Or.inr h
      · intro y hy
        rcases List.mem_cons.mp hy with rfl | hy'
        · exact f1 y (List.mem_cons_self y rd)
        · exact f5 y hy'
      · intro hnd
        exact f6 (List.nodup_cons.mpr ⟨hr, hnd⟩)
      · have hcard : (r :: wl).length + (U \ (r :: rd).toFinset).card =
            wl.length + (U \ rd.toFinset).card := by
          have := card_sdiff_cons_lt U hrU hr
          have hge : 1 ≤ (U \ rd.toFinset).card := by
            have : r ∈ U \ rd.toFinset :=
              Finset.mem_sdiff.mpr ⟨hrU, by simpa using hr⟩
            have := Finset.card_pos.mpr ⟨r, this⟩
            omega
          rw [List.toFinset_cons, Finset.sdiff_insert,
            Finset.card_erase_of_mem (Finset.mem_sdiff.mpr ⟨hrU, by simpa using hr⟩)]
          simp only [List.length_cons]
          omega
        calc (l.foldl (fun q r =>
            if r ∈ q.1 then q else (r :: q.1, r :: q.2)) (r :: rd, r :: wl)).2.length +
              (U \ (l.foldl (fun q r =>
                if r ∈ q.1 then q else (r :: q.1, r :: q.2)) (r :: rd, r :: wl)).1.toFinset).card
            ≤ (r :: wl).length + (U \ (r :: rd).toFinset).card := f7
          _ = wl.length + (U \ rd.toFinset).card := hcard
      · intro x hx hxr
        by_cases hxrr : x ∈ r :: rd
        · rcases List.mem_cons.mp hxrr with rfl | h'
          · exact f3 x (List.mem_cons_self x wl)
          · exact absurd h' hxr
        · exact f9 x hx hxrr

theorem transRevDepsLoop_spec (g : CrateGraph) (hwf : g.Wf) (of : Nat) :
    ∀ (fuel : Nat) (wl rd : List Nat),
      (∀ x ∈ wl, x ∈ rd) →
      (∀ x ∈ rd, g.Reaches x of) →
      (∀ x ∈ rd, x ∈ g.keys) →
      (∀ x ∈ rd, x ∉ wl → ∀ y ∈ g.invSucc x, y ∈ rd) →
      rd.Nodup →
      wl.length + (g.keys.toFinset \ rd.toFinset).card < fuel →
      (∀ x ∈ rd, x ∈ g.transRevDepsLoop fuel wl rd) ∧
      (∀ x ∈ g.transRevDepsLoop fuel wl rd, g.Reaches x of) ∧
      (∀ x ∈ g.transRevDepsLoop fuel wl rd, ∀ y ∈ g.invSucc x,
        y ∈ g.transRevDepsLoop fuel wl rd) ∧
      (g.transRevDepsLoop fuel wl rd).Nodup := by
  intro fuel
  induction fuel with
  | zero =>
    intro wl rd _ _ _ _ _ hlt
    omega
  | succ fuel ih =>
    intro wl rd hwl hsound hkeys hclosed hnd hlt
    match hw : wl with
    | [] =>
      simp only [CrateGraph.transRevDepsLoop]
      exact ⟨fun x hx => hx, hsound, fun x hx y hy =>
        hclosed x hx (List.not_mem_nil x) y hy, hnd⟩
    | k :: rest =>
      simp only [CrateGraph.transRevDepsLoop]
      have hkrd : k ∈ rd := hwl k (List.mem_cons_self k rest)
      obtain ⟨f1, f2, f3, f4, f5, f6, f7, f9⟩ := revFold_spec g g.keys.toFinset
        (g.invSucc k) rd rest
        (fun y hy => List.mem_toFinset.mpr (invSucc_subset_keys g k y hy))
      have hrest : ∀ x ∈ rest, x ∈ rd := fun x hx => hwl x (List.mem_cons_of_mem k hx)
      have hstep := ih
        ((g.invSucc k).foldl (fun q r =>
          if r ∈ q.1 then q else (r :: q.1, r :: q.2)) (rd, rest)).2
        ((g.invSucc k).foldl (fun q r =>
          if r ∈ q.1 then q else (r :: q.1, r :: q.2)) (rd, rest)).1
        (fun x hx => by
          rcases f4 x hx with h | h
          · exact f1 x (hrest x h)
          · exact h)
        (fun x hx => by
          rcases f2 x hx with h | h
          · exact hsound x h
          · exact Relation.ReflTransGen.head
              ((mem_invSucc_iff_edgeRel g hwf.1 k x).mp h) (hsound k hkrd))
        (fun x hx => by
          rcases f2 x hx with h | h
          · exact hkeys x h
          · exact invSucc_subset_keys g k x h)
        (fun x hx hxw y hy => by
          by_cases hxk : x = k
          · subst hxk
            exact f5 y hy
          · by_cases hxrd : x ∈ rd
            · have hxrest : x ∉ rest := fun hc => hxw (f3 x hc)
              have hxwl : x ∉ k :: rest := by
                intro hc
                rcases List.mem_cons.mp hc with h | h
                · exact hxk h
                · exact hxrest h
              exact f1 y (hclosed x hxrd hxwl y hy)
            · exact absurd (f9 x hx hxrd) hxw)
        (f6 hnd)
        (by
          have hlt' : rest.length + (g.keys.toFinset \ rd.toFinset).card < fuel := by
            simp only [List.length_cons] at hlt
            omega
          omega)
      obtain ⟨s1, s2, s3, s4⟩ := hstep
      exact ⟨fun x hx => s1 x (f1 x hx), s2, s3, s4⟩

theorem mem_transitiveRevDeps_iff (g : CrateGraph) (hwf : g.Wf) (of : Nat)
    (hof : of ∈ g.keys) (x : Nat) :
    x ∈ g.transitiveRevDeps of ↔ g.Reaches x of := by
  have hcard : ([of] : List Nat).length +
      (g.keys.toFinset \ ([of] : List Nat).toFinset).card < g.fuelBound := by
    have h1 : (g.keys.toFinset \ ([of] : List Nat).toFinset).card ≤ g.keys.toFinset.card :=
      Finset.card_le_card Finset.sdiff_subset
    have h2 : g.keys.toFinset.card ≤ g.keys.length := g.keys.toFinset_card_le
    have h3 : g.keys.length = g.arena.length := by
      unfold CrateGraph.keys
      exact List.length_map _ _
    unfold CrateGraph.fuelBound
    simp only [List.length_cons, List.length_nil]
    omega
  obtain ⟨s1, s2, s3, s4⟩ := transRevDepsLoop_spec g hwf of g.fuelBound [of] [of]
    (fun y hy => hy)
    (fun y hy => by
      rcases List.mem_cons.mp hy with rfl | hy'
      · exact reaches_refl g y
      · exact absurd hy' (List.not_mem_nil y))
    (fun y hy => by
      rcases List.mem_cons.mp hy with rfl | hy'
      · exact hof
      · exact absurd hy' (List.not_mem_nil y))
    (fun y hy hyw => absurd hy (by simpa using hyw))
    (List.nodup_cons.mpr ⟨List.not_mem_nil of, List.nodup_nil⟩)
    hcard
  constructor
  · exact s2 x
  · intro hr
    induction hr using Relation.ReflTransGen.head_induction_on with
    | refl => exact s1 of (List.mem_cons_self of [])
    | head h' hrest ihr =>
      rename_i a c
      exact s3 c ihr a ((mem_invSucc_iff_edgeRel g hwf.1 c a).mpr h')

theorem transitiveRevDeps_nodup (g : CrateGraph) (hwf : g.Wf) (of : Nat)
    (hof : of ∈ g.keys) : (g.transitiveRevDeps of).Nodup := by
  have hcard : ([of] : List Nat).length +
      (g.keys.toFinset \ ([of] : List Nat).toFinset).card < g.fuelBound := by
    have h1 : (g.keys.toFinset \ ([of] : List Nat).toFinset).card ≤ g.keys.toFinset.card :=
      Finset.card_le_card Finset.sdiff_subset
    have h2 : g.keys.toFinset.card ≤ g.keys.length := g.keys.toFinset_card_le
    have h3 : g.keys.length = g.arena.length := by
      unfold CrateGraph.keys
      exact List.length_map _ _
    unfold CrateGraph.fuelBound
    simp only [List.length_cons, List.length_nil]
    omega
  obtain ⟨-, -, -, s4⟩ := transRevDepsLoop_spec g hwf of g.fuelBound [of] [of]
    (fun y hy => hy)
    (fun y hy => by
      rcases List.mem_cons.mp hy with rfl | hy'
      · exact reaches_refl g y
      · exact absurd hy' (List.not_mem_nil y))
    (fun y hy => by
      rcases List.mem_cons.mp hy with rfl | hy'
      · exact hof
      · exact absurd hy' (List.not_mem_nil y))
    (fun y hy hyw => absurd hy (by simpa using hyw))
    (List.nodup_cons.mpr ⟨List.not_mem_nil of, List.nodup_nil⟩)
    hcard
  exact s4

/-! ## Helper lemmas: topological order -/

theorem before_extend {res t : List Nat} {u v : Nat}
    (h : ∃ l1 l2, res = l1 ++ u :: l2 ∧ v ∈ l1) :
    ∃ l1 l2, res ++ t = l1 ++ u :: l2 ∧ v ∈ l1 := by
  rcases h with ⟨l1, l2, hres, hv⟩
  exact ⟨l1, l2 ++ t, by rw [hres, List.append_assoc, List.cons_append], hv⟩

theorem topoGo_spec (g : CrateGraph) (hwf : g.Wf) (hac : g.Acyclic) :
    ∀ (fuel : Nat) (source : Nat) (visited res S : List Nat),
      source ∈ g.keys →
      (∀ x, x ∈ visited ↔ x ∈ res ∨ x ∈ S) →
      (∀ s ∈ S, g.Reaches s source) →
      ResClosed g res →
      res.Nodup →
      (∀ x ∈ res, x ∈ g.keys) →
      (g.keys.toFinset \ visited.toFinset).card < fuel →
      (∃ t, (g.topoGo fuel source (visited, res)).2 = res ++ t) ∧
      (∀ x, x ∈ (g.topoGo fuel source (visited, res)).1 ↔
        x ∈ (g.topoGo fuel source (visited, res)).2 ∨ x ∈ S) ∧
      ResClosed g (g.topoGo fuel source (visited, res)).2 ∧
      (g.topoGo fuel source (visited, res)).2.Nodup ∧
      (∀ x ∈ (g.topoGo fuel source (visited, res)).2, x ∈ g.keys) ∧
      source ∈ (g.topoGo fuel source (visited, res)).1 ∧
      (∀ x ∈ (g.topoGo fuel source (visited, res)).2, x ∉ res → x ∉ S) := by
  intro fuel
  induction fuel with
  | zero =>
    intro source visited res S _ _ _ _ _ _ hlt
    omega
  | succ fuel ih =>
    intro source visited res S hsrc hpart hgray hclosed hnd hresK hlt
    by_cases hv : source ∈ visited
    · simp only [CrateGraph.topoGo, if_pos hv]
      exact ⟨⟨[], by simp⟩, hpart, hclosed, hnd, hresK, hv,
        fun x hx hxr => absurd hx hxr⟩
    · simp only [CrateGraph.topoGo, if_neg hv]
      have hsrcnr : source ∉ res := fun hc => hv ((hpart source).mpr (Or.inl hc))
      have hsrcnS : source ∉ S := fun hc => hv ((hpart source).mpr (Or.inr hc))
      have aux : ∀ (ds : List Nat) (visited₁ res₁ : List Nat),
          (∀ d ∈ ds, d ∈ g.keys) →
          (∀ x, x ∈ visited₁ ↔ x ∈ res₁ ∨ x ∈ source :: S) →
          (∀ s ∈ source :: S, ∀ d ∈ ds, g.Reaches s d) →
          ResClosed g res₁ →
          res₁.Nodup →
          (∀ x ∈ res₁, x ∈ g.keys) →
          (g.keys.toFinset \ visited₁.toFinset).card < fuel →
          (∃ t, (ds.foldl (fun st d => g.topoGo fuel d st) (visited₁, res₁)).2 =
            res₁ ++ t) ∧
          (∀ x, x ∈ (ds.foldl (fun st d => g.topoGo fuel d st) (visited₁, res₁)).1 ↔
            x ∈ (ds.foldl (fun st d => g.topoGo fuel d st) (visited₁, res₁)).2 ∨
              x ∈ source :: S) ∧
          ResClosed g (ds.foldl (fun st d => g.topoGo fuel d st) (visited₁, res₁)).2 ∧
          (ds.foldl (fun st d => g.topoGo fuel d st) (visited₁, res₁)).2.Nodup ∧
          (∀ x ∈ (ds.foldl (fun st d => g.topoGo fuel d st) (visited₁, res₁)).2,
            x ∈ g.keys) ∧
          (∀ d ∈ ds, d ∈ (ds.foldl (fun st d => g.topoGo fuel d st) (visited₁, res₁)).1) ∧
          (∀ x ∈ (ds.foldl (fun st d => g.topoGo fuel d st) (visited₁, res₁)).2,
            x ∉ res₁ → x ∉ source :: S) := by
        intro ds
        induction ds with
        | nil =>
          intro visited₁ res₁ _ hpart₁ _ hclosed₁ hnd₁ hresK₁ _
          exact ⟨⟨[], by simp⟩, hpart₁, hclosed₁, hnd₁, hresK₁,
            fun d hd => absurd hd (List.not_mem_nil d),
            fun x hx hxr => absurd hx hxr⟩
        | cons d ds ihd =>
          intro visited₁ res₁ hdsK hpart₁ hgray₁ hclosed₁ hnd₁ hresK₁ hlt₁
          simp only [List.foldl_cons]
          obtain ⟨g1, g2, g3, g4, g5, g6, g7⟩ := ih d visited₁ res₁ (source :: S)
            (hdsK d (List.mem_cons_self d ds)) hpart₁
            (fun s hs => hgray₁ s hs d (List.mem_cons_self d ds))
            hclosed₁ hnd₁ hresK₁ hlt₁
          rcases g1 with ⟨t₁, ht₁⟩
          have hvsub : visited₁ ⊆ (g.topoGo fuel d (visited₁, res₁)).1 := by
            intro x hx
            rcases (hpart₁ x).mp hx with h | h
            · exact (g2 x).mpr (Or.inl (by rw [ht₁]; exact List.mem_append.mpr (Or.inl h)))
            · exact (g2 x).mpr (Or.inr h)
          have hlt₂ : (g.keys.toFinset \
              (g.topoGo fuel d (visited₁, res₁)).1.toFinset).card < fuel :=
            lt_of_le_of_lt (card_sdiff_le_of_subset _ hvsub) hlt₁
          obtain ⟨k1, k2, k3, k4, k5, k6, k7⟩ := ihd
            (g.topoGo fuel d (visited₁, res₁)).1
            (g.topoGo fuel d (visited₁, res₁)).2
            (fun z hz => hdsK z (List.mem_cons_of_mem d hz))
            g2
            (fun s hs z hz => hgray₁ s hs z (List.mem_cons_of_mem d hz))
            g3 g4 g5 hlt₂
          rcases k1 with ⟨t₂, ht₂⟩
          refine ⟨⟨t₁ ++ t₂, by rw [ht₂, ht₁, List.append_assoc]⟩, k2, k3, k4, k5, ?_, ?_⟩
          · intro z hz
            rcases List.mem_cons.mp hz with rfl | hz'
            · -- d was visited by its own call; membership persists
              have hd₁ : z ∈ (g.topoGo fuel z (visited₁, res₁)).1 := g6
              rcases (g2 z).mp hd₁ with h | h
              · exact (k2 z).mpr (Or.inl (by rw [ht₂]; exact List.mem_append.mpr (Or.inl h)))
              · exact (k2 z).mpr (Or.inr h)
            · exact k6 z hz'
          · intro x hx hxr
            by_cases hxg : x ∈ (g.topoGo fuel d (visited₁, res₁)).2
            · exact g7 x hxg hxr
            · have hxr₂ : x ∉ (g.topoGo fuel d (visited₁, res₁)).2 := hxg
              exact k7 x hx hxr₂
      have hcard₁ : (g.keys.toFinset \ (source :: visited).toFinset).card < fuel := by
        have := card_sdiff_cons_lt g.keys.toFinset (List.mem_toFinset.mpr hsrc) hv
        omega
      obtain ⟨a1, a2, a3, a4, a5, a6, a7⟩ := aux (g.succList source) (source :: visited) res
        (succList_subset_keys g hwf source)
        (fun x => by
          constructor
          · intro hx
            rcases List.mem_cons.mp hx with rfl | hx'
            · exact Or.inr (List.mem_cons_self x S)
            · rcases (hpart x).mp hx' with h | h
              · exact Or.inl h
              · exact Or.inr (List.mem_cons_of_mem source h)
          · intro hx
            rcases hx with h | h
            · exact List.mem_cons_of_mem source ((hpart x).mpr (Or.inl h))
            · rcases List.mem_cons.mp h with rfl | h'
              · exact List.mem_cons_self x visited
              · exact List.mem_cons_of_mem source ((hpart x).mpr (Or.inr h')))
        (fun s hs d hd => by
          rcases List.mem_cons.mp hs with rfl | hs'
          · exact reaches_of_edge g ((edgeRel_iff_mem_succList g s d).mpr hd)
          · exact Relation.ReflTransGen.tail (hgray s hs')
              ((edgeRel_iff_mem_succList g source d).mpr hd))
        hclosed hnd hresK hcard₁
      rcases a1 with ⟨t, ht⟩
      have hsrcnotin : source ∉ (List.foldl (fun st d => g.topoGo fuel d st)
          (source :: visited, res) (g.succList source)).2 := by
        intro hc
        exact a7 source hc hsrcnr (List.mem_cons_self source S)
      refine ⟨⟨t ++ [source], by rw [ht, List.append_assoc]⟩, ?_, ?_, ?_, ?_, ?_, ?_⟩
      · intro x
        constructor
        · intro hx
          rcases (a2 x).mp hx with h | h
          · exact Or.inl (List.mem_append.mpr (Or.inl h))
          · rcases List.mem_cons.mp h with rfl | h'
            · exact Or.inl (List.mem_append.mpr (Or.inr (List.mem_cons_self x [])))
            · exact Or.inr h'
        · intro hx
          rcases hx with h | h
          · rcases List.mem_append.mp h with h' | h'
            · exact (a2 x).mpr (Or.inl h')
            · simp only [List.mem_singleton] at h'
              subst h'
              exact (a2 x).mpr (Or.inr (List.mem_cons_self x S))
          · exact (a2 x).mpr (Or.inr (List.mem_cons_of_mem source h))
      · intro u hu v hvsucc
        rcases List.mem_append.mp hu with hu' | hu'
        · exact before_extend (a3 u hu' v hvsucc)
        · simp only [List.mem_singleton] at hu'
          rw [hu'] at hvsucc ⊢
          have hvvis : v ∈ (List.foldl (fun st d => g.topoGo fuel d st)
              (source :: visited, res) (g.succList source)).1 := a6 v hvsucc
          rcases (a2 v).mp hvvis with h | h
          · exact ⟨_, [], rfl, h⟩
          · exfalso
            rcases List.mem_cons.mp h with hveq | h'
            · rw [hveq] at hvsucc
              exact hac source source
                ((edgeRel_iff_mem_succList g source source).mpr hvsucc)
                (reaches_refl g source)
            · exact hac source v ((edgeRel_iff_mem_succList g source v).mpr hvsucc)
                (hgray v h')
      · rw [List.nodup_append]
        exact ⟨a4, List.nodup_singleton source, by simpa using hsrcnotin⟩
      · intro x hx
        rcases List.mem_append.mp hx with h | h
        · exact a5 x h
        · simp only [List.mem_singleton] at h
          subst h
          exact hsrc
      · -- `source` is in the final visited set
        exact (a2 source).mpr (Or.inr (List.mem_cons_self source S))
      · intro x hx hxr
        rcases List.mem_append.mp hx with h | h
        · intro hc
          exact a7 x h hxr (List.mem_cons_of_mem source hc)
        · simp only [List.mem_singleton] at h
          subst h
          exact hsrcnS

theorem topoFold_spec (g : CrateGraph) (hwf : g.Wf) (hac : g.Acyclic) :
    ∀ (ks : List Nat) (visited res : List Nat),
      (∀ k ∈ ks, k ∈ g.keys) →
      (∀ x, x ∈ visited ↔ x ∈ res) →
      ResClosed g res →
      res.Nodup →
      (∀ x ∈ res, x ∈ g.keys) →
      (∃ t, (ks.foldl (fun st k => g.topoGo (g.arena.length + 1) k st)
        (visited, res)).2 = res ++ t) ∧
      (∀ x, x ∈ (ks.foldl (fun st k => g.topoGo (g.arena.length + 1) k st)
        (visited, res)).1 ↔
        x ∈ (ks.foldl (fun st k => g.topoGo (g.arena.length + 1) k st) (visited, res)).2) ∧
      ResClosed g (ks.foldl (fun st k => g.topoGo (g.arena.length + 1) k st)
        (visited, res)).2 ∧
      (ks.foldl (fun st k => g.topoGo (g.arena.length + 1) k st) (visited, res)).2.Nodup ∧
      (∀ x ∈ (ks.foldl (fun st k => g.topoGo (g.arena.length + 1) k st)
        (visited, res)).2, x ∈ g.keys) ∧
      (∀ k ∈ ks, k ∈ (ks.foldl (fun st k => g.topoGo (g.arena.length + 1) k st)
        (visited, res)).2) := by
  intro ks
  induction ks with
  | nil =>
    intro visited res _ hpart hclosed hnd hresK
    exact ⟨⟨[], by simp⟩, hpart, hclosed, hnd, hresK,
      fun k hk => absurd hk (List.not_mem_nil k)⟩
  | cons k ks ihk =>
    intro visited res hksK hpart hclosed hnd hresK
    simp only [List.foldl_cons]
    have hcard : (g.keys.toFinset \ visited.toFinset).card < g.arena.length + 1 := by
      have h1 : (g.keys.toFinset \ visited.toFinset).card ≤ g.keys.toFinset.card :=
        Finset.card_le_card Finset.sdiff_subset
      have h2 : g.keys.toFinset.card ≤ g.keys.length := g.keys.toFinset_card_le
      have h3 : g.keys.length = g.arena.length := by
        unfold CrateGraph.keys
        exact List.length_map _ _
      omega
    obtain ⟨g1, g2, g3, g4, g5, g6, g7⟩ := topoGo_spec g hwf hac
      (g.arena.length + 1) k visited res []
      (hksK k (List.mem_cons_self k ks))
      (fun x => by rw [hpart x]; simp)
      (fun s hs => absurd hs (List.not_mem_nil s))
      hclosed hnd hresK hcard
    rcases g1 with ⟨t₁, ht₁⟩
    obtain ⟨k1, k2, k3, k4, k5, k6⟩ := ihk
      (g.topoGo (g.arena.length + 1) k (visited, res)).1
      (g.topoGo (g.arena.length + 1) k (visited, res)).2
      (fun z hz => hksK z (List.mem_cons_of_mem k hz))
      (fun x => by rw [g2 x]; simp)
      g3 g4 g5
    rcases k1 with ⟨t₂, ht₂⟩
    refine ⟨⟨t₁ ++ t₂, by rw [ht₂, ht₁, List.append_assoc]⟩, k2, k3, k4, k5, ?_⟩
    intro z hz
    rcases List.mem_cons.mp hz with rfl | hz'
    · have hzvis : z ∈ (g.topoGo (g.arena.length + 1) z (visited, res)).1 := g6
      have hzres : z ∈ (g.topoGo (g.arena.length + 1) z (visited, res)).2 := by
        rcases (g2 z).mp hzvis with h | h
        · exact h
        · exact absurd h (List.not_mem_nil z)
      rw [ht₂]
      exact List.mem_append.mpr (Or.inl hzres)
    · exact k6 z hz'

theorem cratesInTopologicalOrder_spec (g : CrateGraph) (hwf : g.Wf) (hac : g.Acyclic) :
    g.cratesInTopologicalOrder.Perm g.keys ∧
    (∀ u v, g.edgeRel u v → ∃ l1 l2,
      g.cratesInTopologicalOrder = l1 ++ u :: l2 ∧ v ∈ l1) := by
  obtain ⟨t1, t2, t3, t4, t5, t6⟩ := topoFold_spec g hwf hac g.keys [] []
    (fun k hk => hk) (fun x => by simp) (fun u hu => absurd hu (List.not_mem_nil u))
    List.nodup_nil (fun x hx => absurd hx (List.not_mem_nil x))
  unfold CrateGraph.cratesInTopologicalOrder
  constructor
  · rw [List.perm_ext_iff_of_nodup t4 hwf.1]
    intro a
    exact ⟨fun ha => t5 a ha, fun ha => t6 a ha⟩
  · intro u v huv
    have hu : u ∈ g.keys := mem_keys_of_edgeRel g huv
    have hures : u ∈ g.cratesInTopologicalOrder := t6 u hu
    exact t3 u hures v ((edgeRel_iff_mem_succList g u v).mp huv)

/-! ## Helper lemmas: `extend` and well-formedness -/

theorem shiftData_comp (m n : Nat) (d : CrateData) :
    shiftData n (shiftData m d) = shiftData (m + n) d := by
  unfold shiftData shiftId
  simp only [List.map_map]
  congr 1
  apply List.map_congr_left
  intro dep _
  simp only [Function.comp_apply]
  congr 1
  omega

theorem shiftList_comp (m n : Nat) (l : List (Nat × CrateData)) :
    shiftList n (shiftList m l) = shiftList (m + n) l := by
  unfold shiftList
  rw [List.map_map]
  apply List.map_congr_left
  intro p _
  simp only [Function.comp_apply, shiftData_comp]
  unfold shiftId
  congr 1
  omega

theorem insertKV_of_fresh (a : List (Nat × CrateData)) (k : Nat) (v : CrateData)
    (h : ∀ q ∈ a, q.1 ≠ k) : insertKV a k v = a ++ [(k, v)] := by
  unfold insertKV
  rw [if_neg]
  intro hc
  rcases List.any_eq_true.mp hc with ⟨q, hq, hqk⟩
  exact h q hq (of_decide_eq_true hqk)

theorem foldl_insertKV_eq_append (f : Nat × CrateData → Nat × CrateData) :
    ∀ (l : List (Nat × CrateData)) (a : List (Nat × CrateData)),
      (∀ p ∈ l, ∀ q ∈ a, q.1 ≠ (f p).1) →
      ((l.map f).map (fun p => p.1)).Nodup →
      l.foldl (fun acc p => insertKV acc (f p).1 (f p).2) a = a ++ l.map f := by
  intro l
  induction l with
  | nil =>
    intro a _ _
    simp
  | cons p l ihl =>
    intro a hfresh hnd
    simp only [List.foldl_cons]
    rw [insertKV_of_fresh a (f p).1 (f p).2
      (fun q hq => hfresh p (List.mem_cons_self p l) q hq)]
    simp only [List.map_cons, List.nodup_cons] at hnd
    have hfresh' : ∀ r ∈ l, ∀ q ∈ a ++ [f p], q.1 ≠ (f r).1 := by
      intro r hr q hq
      rcases List.mem_append.mp hq with hq' | hq'
      · exact hfresh r (List.mem_cons_of_mem p hr) q hq'
      · simp only [List.mem_singleton] at hq'
        subst hq'
        intro hc
        apply hnd.1
        rw [hc]
        exact List.mem_map.mpr ⟨f r, List.mem_map.mpr ⟨r, hr, rfl⟩, rfl⟩
    rw [ihl (a ++ [f p]) hfresh' hnd.2]
    simp

theorem extend_eq_append (g other : CrateGraph) (hg : g.Wf) (ho : other.Wf) :
    g.extend other =
      (g.arena.length, ⟨g.arena ++ shiftList g.arena.length other.arena⟩) := by
  unfold CrateGraph.extend
  have hfold : other.arena.foldl (fun a p =>
      insertKV a (shiftId g.arena.length p.1) (shiftData g.arena.length p.2)) g.arena =
      g.arena ++ other.arena.map (fun p =>
        (shiftId g.arena.length p.1, shiftData g.arena.length p.2)) := by
    apply foldl_insertKV_eq_append
      (fun p => (shiftId g.arena.length p.1, shiftData g.arena.length p.2))
    · intro p hp q hq
      have hqk : q.1 < g.arena.length := hg.2.1 q.1 (List.mem_map.mpr ⟨q, hq, rfl⟩)
      show q.1 ≠ shiftId g.arena.length p.1
      unfold shiftId
      omega
    · have : (other.arena.map (fun p =>
          (shiftId g.arena.length p.1, shiftData g.arena.length p.2))).map
            (fun p => p.1) =
          other.keys.map (fun i => i + g.arena.length) := by
        unfold CrateGraph.keys
        rw [List.map_map, List.map_map]
        apply List.map_congr_left
        intro p _
        rfl
      rw [this]
      exact ho.1.map (fun a b hab => by omega)
  show (g.arena.length, CrateGraph.mk (other.arena.foldl (fun a p =>
      insertKV a (shiftId g.arena.length p.1) (shiftData g.arena.length p.2)) g.arena)) = _
  rw [hfold]
  rfl

theorem keys_append_shift (g other : CrateGraph) :
    (CrateGraph.mk (g.arena ++ shiftList g.arena.length other.arena)).keys =
      g.keys ++ other.keys.map (fun i => i + g.arena.length) := by
  unfold CrateGraph.keys shiftList
  rw [List.map_append, List.map_map, List.map_map]
  congr 1

theorem wf_empty : (CrateGraph.mk []).Wf := by
  refine ⟨List.nodup_nil, ?_, ?_, ?_⟩
  · intro i hi
    exact absurd hi (List.not_mem_nil i)
  · intro i hi
    simp at hi
  · intro p hp
    exact absurd hp (List.not_mem_nil p)

theorem wf_extend (g other : CrateGraph) (hg : g.Wf) (ho : other.Wf) :
    (g.extend other).2.Wf := by
  rw [extend_eq_append g other hg ho]
  have hkeys := keys_append_shift g other
  have hlen : (CrateGraph.mk (g.arena ++ shiftList g.arena.length other.arena)).arena.length =
      g.arena.length + other.arena.length := by
    show (g.arena ++ shiftList g.arena.length other.arena).length = _
    rw [List.length_append]
    unfold shiftList
    rw [List.length_map]
  have hkg : ∀ i ∈ g.keys, i < g.arena.length := hg.2.1
  have hko : ∀ i ∈ other.keys, i < other.arena.length := ho.2.1
  refine ⟨?_, ?_, ?_, ?_⟩
  · rw [hkeys, List.nodup_append]
    refine ⟨hg.1, ho.1.map (fun a b hab => by omega), ?_⟩
    intro i hi hic
    rcases List.mem_map.mp hic with ⟨j, hj, hji⟩
    have := hkg i hi
    omega
  · rw [hkeys, hlen]
    intro i hi
    rcases List.mem_append.mp hi with h | h
    · have := hkg i h
      omega
    · rcases List.mem_map.mp h with ⟨j, hj, hji⟩
      have := hko j hj
      omega
  · rw [hkeys, hlen]
    intro i hi
    by_cases hilt : i < g.arena.length
    · exact List.mem_append.mpr (Or.inl (hg.2.2.1 i hilt))
    · refine List.mem_append.mpr (Or.inr (List.mem_map.mpr
        ⟨i - g.arena.length, ho.2.2.1 (i - g.arena.length) (by omega), by omega⟩))
  · rw [hkeys]
    intro p hp dep hdep
    rcases List.mem_append.mp hp with h | h
    · exact List.mem_append.mpr (Or.inl (hg.2.2.2 p h dep hdep))
    · rcases List.mem_map.mp h with ⟨q, hq, hqp⟩
      have hdep' : dep ∈ (shiftData g.arena.length q.2).dependencies := by
        rw [← hqp] at hdep
        exact hdep
      unfold shiftData at hdep'
      simp only [List.mem_map] at hdep'
      rcases hdep' with ⟨dep₀, hdep₀, hdd⟩
      subst hdd
      refine List.mem_append.mpr (Or.inr (List.mem_map.mpr
        ⟨dep₀.crate_id, ho.2.2.2 q hq dep₀ hdep₀, rfl⟩))

theorem addCrateRoot_eq_of_wf (g : CrateGraph) (hg : g.Wf) (fid : Nat) (ed : Edition)
    (dn : Option CrateDisplayName) (cfg pcfg : CfgOptions) (env : List (String × String)) :
    g.addCrateRoot fid ed dn cfg pcfg env =
      some (g.arena.length,
        ⟨g.arena ++ [(g.arena.length, CrateData.mk fid ed dn cfg pcfg env [])]⟩) := by
  have hfresh : ∀ q ∈ g.arena, q.1 ≠ g.arena.length := by
    intro q hq hc
    have := hg.2.1 q.1 (List.mem_map.mpr ⟨q, hq, rfl⟩)
    omega
  have hnone : g.lookupId g.arena.length = none := by
    cases hl : g.lookupId g.arena.length with
    | none => rfl
    | some d =>
      exfalso
      have := hg.2.1 g.arena.length
        ((mem_keys_iff_lookup_isSome g g.arena.length).mpr (by simp [hl]))
      omega
  show (if (g.lookupId g.arena.length).isSome then none
    else some (g.arena.length,
      CrateGraph.mk (insertKV g.arena g.arena.length (CrateData.mk fid ed dn cfg pcfg env [])))) = _
  rw [hnone]
  simp only [Option.isSome_none, Bool.false_eq_true, if_false]
  rw [insertKV_of_fresh _ _ _ hfresh]

theorem wf_addCrateRoot (g : CrateGraph) (hg : g.Wf) (fid : Nat) (ed : Edition)
    (dn : Option CrateDisplayName) (cfg pcfg : CfgOptions) (env : List (String × String))
    {p : Nat × CrateGraph} (hp : g.addCrateRoot fid ed dn cfg pcfg env = some p) :
    p.2.Wf := by
  rw [addCrateRoot_eq_of_wf g hg fid ed dn cfg pcfg env] at hp
  cases hp
  have hkeys : (CrateGraph.mk (g.arena ++
      [(g.arena.length, CrateData.mk fid ed dn cfg pcfg env [])])).keys =
      g.keys ++ [g.arena.length] := by
    unfold CrateGraph.keys
    rw [List.map_append]
    rfl
  have hlen : (g.arena ++
      [(g.arena.length, CrateData.mk fid ed dn cfg pcfg env [])]).length =
      g.arena.length + 1 := by
    rw [List.length_append]
    rfl
  refine ⟨?_, ?_, ?_, ?_⟩
  · rw [hkeys, List.nodup_append]
    refine ⟨hg.1, List.nodup_singleton _, ?_⟩
    intro i hi hic
    simp only [List.mem_singleton] at hic
    rw [hic] at hi
    have := hg.2.1 g.arena.length hi
    omega
  · show ∀ i ∈ _, i < _
    rw [hkeys, hlen]
    intro i hi
    rcases List.mem_append.mp hi with h | h
    · have := hg.2.1 i h
      omega
    · simp only [List.mem_singleton] at h
      omega
  · show ∀ i < _, i ∈ _
    rw [hkeys, hlen]
    intro i hi
    by_cases hilt : i < g.arena.length
    · exact List.mem_append.mpr (Or.inl (hg.2.2.1 i hilt))
    · have : i = g.arena.length := by omega
      subst this
      exact List.mem_append.mpr (Or.inr (List.mem_singleton.mpr rfl))
  · rw [hkeys]
    intro q hq dep hdep
    rcases List.mem_append.mp hq with h | h
    · exact List.mem_append.mpr (Or.inl (hg.2.2.2 q h dep hdep))
    · simp only [List.mem_singleton] at h
      subst h
      simp only at hdep
      exact absurd hdep (List.not_mem_nil dep)

theorem wf_updateCrate_addEdge (g : CrateGraph) (hg : g.Wf) (frm t : Nat) (name : String)
    (ht : t ∈ g.keys) :
    (g.updateCrate frm (fun d =>
      { d with dependencies := d.dependencies ++ [{ crate_id := t, name := name }] })).Wf := by
  have hkeys := keys_updateCrate g frm (fun d =>
    { d with dependencies := d.dependencies ++ [{ crate_id := t, name := name }] })
  have hlen : (g.updateCrate frm (fun d =>
      { d with dependencies := d.dependencies ++
        [{ crate_id := t, name := name }] })).arena.length = g.arena.length := by
    show (g.arena.map _).length = _
    rw [List.length_map]
  refine ⟨by rw [hkeys]; exact hg.1, by rw [hkeys, hlen]; exact hg.2.1,
    by rw [hkeys, hlen]; exact hg.2.2.1, ?_⟩
  rw [hkeys]
  intro q hq dep hdep
  rcases List.mem_map.mp hq with ⟨p, hp, hpq⟩
  by_cases hpf : p.1 = frm
  · rw [if_pos hpf] at hpq
    subst hpq
    simp only [List.mem_append] at hdep
    rcases hdep with h | h
    · exact hg.2.2.2 p hp dep h
    · simp only [List.mem_singleton] at h
      subst h
      exact ht
  · rw [if_neg hpf] at hpq
    subst hpq
    exact hg.2.2.2 p hp dep hdep

theorem wf_addDep (g : CrateGraph) (hg : g.Wf) (frm : Nat) (name : String) (t : Nat)
    (ht : t ∈ g.keys) : (g.addDep frm name t).2.Wf := by
  unfold CrateGraph.addDep
  by_cases hdfs : g.dfsFindB frm t = true
  · rw [if_pos hdfs]
    exact hg
  · rw [if_neg hdfs]
    exact wf_updateCrate_addEdge g hg frm t name ht

theorem built_wf {g : CrateGraph} (h : Built g) : g.Wf := by
  induction h with
  | empty => exact wf_empty
  | addRoot hb hsome ihb => exact wf_addCrateRoot _ ihb _ _ _ _ _ _ hsome
  | addDepStep hb hf ht ihb => exact wf_addDep _ ihb _ _ _ ht
  | ext hb hh ihb ihh => exact wf_extend _ _ ihb ihh

/-! ## Helper lemmas: lookups in an extended graph -/

theorem lookupId_append_left (g : CrateGraph) (l : List (Nat × CrateData)) (c : Nat)
    (hc : c ∈ g.keys) :
    (CrateGraph.mk (g.arena ++ l)).lookupId c = g.lookupId c := by
  unfold CrateGraph.lookupId
  show (match (g.arena ++ l).find? (fun p => decide (p.1 = c)) with
    | some p => some p.2
    | none => none) = _
  rw [List.find?_append]
  rcases List.mem_map.mp hc with ⟨p, hp, hpc⟩
  have hsome : (g.arena.find? (fun p => decide (p.1 = c))).isSome :=
    List.find?_isSome.mpr ⟨p, hp, by simp [hpc]⟩
  cases hfind : g.arena.find? (fun p => decide (p.1 = c)) with
  | none =>
    rw [hfind] at hsome
    simp at hsome
  | some q => simp

theorem lookupId_extend_shift (g other : CrateGraph) (hg : g.Wf) (c : Nat) (d : CrateData)
    (hc : other.lookupId c = some d) :
    (CrateGraph.mk (g.arena ++ shiftList g.arena.length other.arena)).lookupId
      (c + g.arena.length) = some (shiftData g.arena.length d) := by
  unfold CrateGraph.lookupId
  show (match (g.arena ++ shiftList g.arena.length other.arena).find?
      (fun p => decide (p.1 = c + g.arena.length)) with
    | some p => some p.2
    | none => none) = _
  rw [List.find?_append]
  have hleft : g.arena.find? (fun p => decide (p.1 = c + g.arena.length)) = none := by
    rw [List.find?_eq_none]
    intro p hp
    have := hg.2.1 p.1 (List.mem_map.mpr ⟨p, hp, rfl⟩)
    simp only [decide_eq_true_eq]
    omega
  rw [hleft]
  simp only [Option.none_or]
  unfold shiftList
  rw [List.find?_map]
  have hpred : (fun p => decide (p.1 = c + g.arena.length)) ∘
      (fun p : Nat × CrateData => (shiftId g.arena.length p.1, shiftData g.arena.length p.2)) =
      fun p : Nat × CrateData => decide (p.1 = c) := by
    funext p
    simp only [Function.comp_apply]
    apply decide_eq_decide.mpr
    unfold shiftId
    omega
  rw [hpred]
  unfold CrateGraph.lookupId at hc
  cases hfind : other.arena.find? (fun p => decide (p.1 = c)) with
  | none =>
    rw [hfind] at hc
    cases hc
  | some q =>
    rw [hfind] at hc
    have hq : q.2 = d := by cases hc; rfl
    show some (shiftData g.arena.length q.2) = some (shiftData g.arena.length d)
    rw [hq]

/-! ## Helper lemmas: `patch_cfg_if` -/

theorem hackyFindCrate_isSome_iff (g : CrateGraph) (name : String) :
    (g.hackyFindCrate name).isSome ↔ ∃ c ∈ g.keys, g.dispOf c = some name := by
  unfold CrateGraph.hackyFindCrate
  rw [List.find?_isSome]
  unfold CrateGraph.dispOf
  constructor
  · rintro ⟨c, hc, hp⟩
    exact ⟨c, hc, of_decide_eq_true hp⟩
  · rintro ⟨c, hc, hp⟩
    exact ⟨c, hc, decide_eq_true hp⟩

theorem hackyFindCrate_eq_some (g : CrateGraph) (name : String) (c : Nat)
    (h : g.hackyFindCrate name = some c) :
    c ∈ g.keys ∧ g.dispOf c = some name := by
  unfold CrateGraph.hackyFindCrate at h
  refine ⟨List.mem_of_find?_eq_some h, ?_⟩
  have := List.find?_some h
  exact of_decide_eq_true this

theorem dispOf_ne_of_names (g : CrateGraph) (ci st : Nat)
    (hci : g.dispOf ci = some ("cfg_if")) (hst : g.dispOf st = some ("std")) :
    ci ≠ st := by
  intro hc
  rw [hc, hst] at hci
  simp at hci

/-- Lookups in the patched graph: `ci`'s record loses its dependencies. -/
theorem patch_lookup_ci (g : CrateGraph) (ci st : Nat) (hne : ci ≠ st) :
    ((g.updateCrate ci (fun d => { d with dependencies := [] })).updateCrate st (fun d =>
      { d with dependencies := d.dependencies ++
        [{ crate_id := ci, name := "cfg_if" }] })).lookupId ci =
    (g.lookupId ci).map (fun d => { d with dependencies := [] }) := by
  rw [lookup_updateCrate_other _ st ci _ hne, lookup_updateCrate_self]

/-- Lookups in the patched graph: `st`'s record gains the edge to `ci`. -/
theorem patch_lookup_st (g : CrateGraph) (ci st : Nat) (hne : ci ≠ st) :
    ((g.updateCrate ci (fun d => { d with dependencies := [] })).updateCrate st (fun d =>
      { d with dependencies := d.dependencies ++
        [{ crate_id := ci, name := "cfg_if" }] })).lookupId st =
    (g.lookupId st).map (fun d => { d with dependencies := d.dependencies ++
      [{ crate_id := ci, name := "cfg_if" }] }) := by
  rw [lookup_updateCrate_self, lookup_updateCrate_other _ ci st _ (fun h => hne h.symm)]

/-- Lookups in the patched graph: every other record is untouched. -/
theorem patch_lookup_other (g : CrateGraph) (ci st c : Nat) (hc1 : c ≠ ci) (hc2 : c ≠ st) :
    ((g.updateCrate ci (fun d => { d with dependencies := [] })).updateCrate st (fun d =>
      { d with dependencies := d.dependencies ++
        [{ crate_id := ci, name := "cfg_if" }] })).lookupId c = g.lookupId c := by
  rw [lookup_updateCrate_other _ st c _ hc2, lookup_updateCrate_other _ ci c _ hc1]

theorem patch_edgeRel_iff (g : CrateGraph) (ci st : Nat) (hne : ci ≠ st)
    {dci dst : CrateData} (hci : g.lookupId ci = some dci) (hst : g.lookupId st = some dst)
    (u v : Nat) :
    ((g.updateCrate ci (fun d => { d with dependencies := [] })).updateCrate st (fun d =>
      { d with dependencies := d.dependencies ++
        [{ crate_id := ci, name := "cfg_if" }] })).edgeRel u v ↔
    ((u ≠ ci ∧ u ≠ st ∧ g.edgeRel u v) ∨ (u = st ∧ (g.edgeRel st v ∨ v = ci))) := by
  by_cases hu1 : u = ci
  · subst hu1
    unfold CrateGraph.edgeRel
    rw [patch_lookup_ci g u st hne, hci]
    constructor
    · rintro ⟨d', hd', hv⟩
      have : ({ dci with dependencies := [] } : CrateData) = d' := by simpa using hd'
      rw [← this] at hv
      simp at hv
    · rintro (⟨hc, -, -⟩ | ⟨hc, -⟩)
      · exact absurd rfl hc
      · exact absurd hc hne
  · by_cases hu2 : u = st
    · subst hu2
      unfold CrateGraph.edgeRel
      rw [patch_lookup_st g ci u hne, hst]
      constructor
      · rintro ⟨d', hd', hv⟩
        have : ({ dst with dependencies := dst.dependencies ++
            [{ crate_id := ci, name := "cfg_if" }] } : CrateData) = d' := by simpa using hd'
        rw [← this] at hv
        simp only [List.map_append, List.mem_append] at hv
        rcases hv with hv | hv
        · exact Or.inr ⟨rfl, Or.inl ⟨dst, rfl, hv⟩⟩
        · simp only [List.map_cons, List.map_nil, List.mem_singleton] at hv
          exact Or.inr ⟨rfl, Or.inr hv⟩
      · rintro (⟨-, hc, -⟩ | ⟨-, h | h⟩)
        · exact absurd rfl hc
        · rcases h with ⟨d', hd', hv⟩
          have hdd : dst = d' := by simpa using hd'
          refine ⟨_, rfl, ?_⟩
          simp only [List.map_append, List.mem_append]
          rw [← hdd] at hv
          exact Or.inl hv
        · refine ⟨_, rfl, ?_⟩
          simp only [List.map_append, List.mem_append]
          right
          simp [h]
    · unfold CrateGraph.edgeRel
      rw [patch_lookup_other g ci st u hu1 hu2]
      constructor
      · intro h
        exact Or.inl ⟨hu1, hu2, h⟩
      · rintro (⟨-, -, h⟩ | ⟨hc, -⟩)
        · exact h
        · exact absurd hc hu2

theorem patch_reaches_ci (g : CrateGraph) (ci st : Nat) (hne : ci ≠ st)
    {dci : CrateData} (hci : g.lookupId ci = some dci) {y : Nat}
    (h : ((g.updateCrate ci (fun d => { d with dependencies := [] })).updateCrate st (fun d =>
      { d with dependencies := d.dependencies ++
        [{ crate_id := ci, name := "cfg_if" }] })).Reaches ci y) :
    y = ci := by
  rcases Relation.ReflTransGen.cases_head h with h' | ⟨c, hc, -⟩
  · exact h'.symm
  · exfalso
    rcases hc with ⟨d', hd', hv⟩
    rw [patch_lookup_ci g ci st hne, hci] at hd'
    have : ({ dci with dependencies := [] } : CrateData) = d' := by simpa using hd'
    rw [← this] at hv
    simp at hv

theorem patch_reaches_decomp (g : CrateGraph) (ci st : Nat) (hne : ci ≠ st)
    {dci dst : CrateData} (hci : g.lookupId ci = some dci) (hst : g.lookupId st = some dst)
    {x y : Nat}
    (h : ((g.updateCrate ci (fun d => { d with dependencies := [] })).updateCrate st (fun d =>
      { d with dependencies := d.dependencies ++
        [{ crate_id := ci, name := "cfg_if" }] })).Reaches x y)
    (hx : x ≠ ci) :
    g.Reaches x y ∨ (g.Reaches x st ∧ y = ci) := by
  induction h using Relation.ReflTransGen.head_induction_on with
  | refl => exact Or.inl (reaches_refl g y)
  | head h' hrest ihp =>
    rename_i a c
    rcases (patch_edgeRel_iff g ci st hne hci hst a c).mp h' with
      ⟨-, -, he⟩ | ⟨hast, hor⟩
    · by_cases hcci : c = ci
      · have hy : y = ci := patch_reaches_ci g ci st hne hci
          (by rw [hcci] at hrest; exact hrest)
        rw [hy, ← hcci]
        exact Or.inl (reaches_of_edge g he)
      · rcases ihp hcci with hcy | ⟨hcst, hyci⟩
        · exact Or.inl (Relation.ReflTransGen.head he hcy)
        · exact Or.inr ⟨Relation.ReflTransGen.head he hcst, hyci⟩
    · rcases hor with he | hcci
      · by_cases hcci : c = ci
        · have hy : y = ci := patch_reaches_ci g ci st hne hci
            (by rw [hcci] at hrest; exact hrest)
          rw [hy, hast, ← hcci]
          exact Or.inl (reaches_of_edge g he)
        · rcases ihp hcci with hcy | ⟨hcst, hyci⟩
          · rw [hast]
            exact Or.inl (Relation.ReflTransGen.head he hcy)
          · rw [hast]
            exact Or.inr ⟨Relation.ReflTransGen.head he hcst, hyci⟩
      · have hy : y = ci := patch_reaches_ci g ci st hne hci
          (by rw [hcci] at hrest; exact hrest)
        rw [hast, hy]
        exact Or.inr ⟨reaches_refl g st, rfl⟩

theorem patch_acyclic (g : CrateGraph) (ci st : Nat) (hne : ci ≠ st)
    {dci dst : CrateData} (hci : g.lookupId ci = some dci) (hst : g.lookupId st = some dst)
    (hac : g.Acyclic) :
    ((g.updateCrate ci (fun d => { d with dependencies := [] })).updateCrate st (fun d =>
      { d with dependencies := d.dependencies ++
        [{ crate_id := ci, name := "cfg_if" }] })).Acyclic := by
  intro u v huv hvu
  rcases (patch_edgeRel_iff g ci st hne hci hst u v).mp huv with
    ⟨hu1, hu2, he⟩ | ⟨hust, hor⟩
  · by_cases hvci : v = ci
    · have := patch_reaches_ci g ci st hne hci (by rw [hvci] at hvu; exact hvu)
      exact hu1 (this ▸ rfl)
    · rcases patch_reaches_decomp g ci st hne hci hst hvu hvci with hr | ⟨-, huci⟩
      · exact hac u v he hr
      · exact hu1 huci
  · rcases hor with he | hvci
    · by_cases hvci : v = ci
      · have hu : u = ci := patch_reaches_ci g ci st hne hci (by rw [hvci] at hvu; exact hvu)
        rw [hust] at hu
        exact hne hu.symm
      · rcases patch_reaches_decomp g ci st hne hci hst hvu hvci with hr | ⟨-, huci⟩
        · rw [hust] at hr
          exact hac st v he hr
        · rw [hust] at huci
          exact hne huci.symm
    · have hu : u = ci := patch_reaches_ci g ci st hne hci (by rw [hvci] at hvu; exact hvu)
      rw [hust] at hu
      exact hne hu.symm

/-! ## Helper lemmas: cfg -/

theorem hasDupScan_eq_false_iff (l : List CfgAtom) : ∀ seen,
    CfgDiff.hasDupScan seen l = false ↔ (l.Nodup ∧ ∀ x ∈ l, x ∉ seen) := by
  induction l with
  | nil => intro seen; simp [CfgDiff.hasDupScan]
  | cons x xs ih =>
    intro seen
    simp only [CfgDiff.hasDupScan]
    by_cases hx : x ∈ seen
    · simp only [if_pos hx]
      constructor
      · intro h; cases h
      · rintro ⟨-, h⟩
        exact absurd hx (h x (List.mem_cons_self x xs))
    · simp only [if_neg hx]
      rw [ih (x :: seen)]
      constructor
      · rintro ⟨hnd, hmem⟩
        refine ⟨List.nodup_cons.mpr ⟨fun hxx => ?_, hnd⟩, ?_⟩
        · exact absurd (List.mem_cons_self x seen) (hmem x hxx)
        · intro y hy
          rcases List.mem_cons.mp hy with rfl | hy'
          · exact hx
          · intro hcon
            exact (hmem y hy') (List.mem_cons_of_mem x hcon)
      · rintro ⟨hnd, hmem⟩
        rcases List.nodup_cons.mp hnd with ⟨hxxs, hnd'⟩
        refine ⟨hnd', ?_⟩
        intro y hy hycon
        rcases List.mem_cons.mp hycon with rfl | hyseen
        · exact hxxs hy
        · exact (hmem y (List.mem_cons_of_mem x hy)) hyseen

theorem cfgDiff_new_eq_some_iff (enable disable : List CfgAtom) :
    CfgDiff.new enable disable = some ⟨enable, disable⟩ ↔ (enable ++ disable).Nodup := by
  unfold CfgDiff.new
  by_cases h : CfgDiff.hasDupScan [] (enable ++ disable) = false
  · rw [if_neg (by simp [h])]
    have := (hasDupScan_eq_false_iff (enable ++ disable) []).mp h
    simp [this.1]
  · have h' : CfgDiff.hasDupScan [] (enable ++ disable) = true := by
      cases hs : CfgDiff.hasDupScan [] (enable ++ disable) with
      | false => exact absurd hs h
      | true => rfl
    rw [if_pos h']
    constructor
    · intro hc; cases hc
    · intro hnd
      have : CfgDiff.hasDupScan [] (enable ++ disable) = false :=
        (hasDupScan_eq_false_iff (enable ++ disable) []).mpr ⟨hnd, by simp⟩
      rw [h'] at this; cases this

theorem cfgDiff_new_eq_none_iff (enable disable : List CfgAtom) :
    CfgDiff.new enable disable = none ↔ ¬ (enable ++ disable).Nodup := by
  constructor
  · intro h hnd
    have := (cfgDiff_new_eq_some_iff enable disable).mpr hnd
    rw [h] at this; cases this
  · intro hnd
    unfold CfgDiff.new
    have h' : CfgDiff.hasDupScan [] (enable ++ disable) = true := by
      cases hs : CfgDiff.hasDupScan [] (enable ++ disable) with
      | false =>
        exact absurd ((hasDupScan_eq_false_iff (enable ++ disable) []).mp hs).1 hnd
      | true => rfl
    rw [if_pos h']

theorem mem_insertAtomSet (l : List CfgAtom) (a x : CfgAtom) :
    x ∈ CfgOptions.insertAtomSet l a ↔ x = a ∨ x ∈ l := by
  unfold CfgOptions.insertAtomSet
  by_cases h : a ∈ l
  · simp only [if_pos h]
    constructor
    · exact Or.inr
    · rintro (rfl | hx)
      · exact h
      · exact hx
  · simp [if_neg h]

theorem mem_foldl_insertAtomSet (es : List CfgAtom) : ∀ (l : List CfgAtom) (x : CfgAtom),
    x ∈ es.foldl CfgOptions.insertAtomSet l ↔ x ∈ es ∨ x ∈ l := by
  induction es with
  | nil => intro l x; simp
  | cons e es ih =>
    intro l x
    simp only [List.foldl_cons]
    rw [ih]
    rw [mem_insertAtomSet]
    constructor
    · rintro (h | heq | h)
      · exact Or.inl (List.mem_cons_of_mem e h)
      · exact Or.inl (List.mem_cons.mpr (Or.inl heq))
      · exact Or.inr h
    · rintro (h | h)
      · rcases List.mem_cons.mp h with rfl | h'
        · exact Or.inr (Or.inl rfl)
        · exact Or.inl h'
      · exact Or.inr (Or.inr h)

theorem foldl_insertAtomSet_of_all_mem (es : List CfgAtom) : ∀ (l : List CfgAtom),
    (∀ e ∈ es, e ∈ l) → es.foldl CfgOptions.insertAtomSet l = l := by
  induction es with
  | nil => intro l _; rfl
  | cons e es ih =>
    intro l h
    simp only [List.foldl_cons]
    have he : e ∈ l := h e (List.mem_cons_self e es)
    rw [CfgOptions.insertAtomSet, if_pos he]
    exact ih l (fun x hx => h x (List.mem_cons_of_mem e hx))

theorem mem_foldl_removeAtomSet (ds : List CfgAtom) : ∀ (l : List CfgAtom) (x : CfgAtom),
    x ∈ ds.foldl CfgOptions.removeAtomSet l ↔ x ∈ l ∧ x ∉ ds := by
  induction ds with
  | nil => intro l x; simp
  | cons d ds ih =>
    intro l x
    simp only [List.foldl_cons]
    rw [ih]
    unfold CfgOptions.removeAtomSet
    rw [List.mem_filter]
    constructor
    · rintro ⟨⟨hx, hne⟩, hnd⟩
      refine ⟨hx, ?_⟩
      intro hc
      rcases List.mem_cons.mp hc with rfl | hc'
      · exact (of_decide_eq_true hne) rfl
      · exact hnd hc'
    · rintro ⟨hx, hnd⟩
      refine ⟨⟨hx, decide_eq_true ?_⟩, fun hc => hnd (List.mem_cons_of_mem d hc)⟩
      intro rfl_eq
      exact hnd (by rw [rfl_eq]; exact List.mem_cons_self d ds)

theorem foldl_removeAtomSet_of_none_mem (ds : List CfgAtom) : ∀ (l : List CfgAtom),
    (∀ d ∈ ds, d ∉ l) → ds.foldl CfgOptions.removeAtomSet l = l := by
  induction ds with
  | nil => intro l _; rfl
  | cons d ds ih =>
    intro l h
    simp only [List.foldl_cons]
    have hrm : CfgOptions.removeAtomSet l d = l := by
      unfold CfgOptions.removeAtomSet
      apply List.filter_eq_self.mpr
      intro x hx
      apply decide_eq_true
      intro rfl_eq
      exact (h d (List.mem_cons_self d ds)) (by rw [← rfl_eq]; exact hx)
    rw [hrm]
    exact ih l (fun x hx => h x (List.mem_cons_of_mem d hx))

theorem foldAll_isSome (q : CfgAtom → Option Bool) (ps : List CfgExpr)
    (h : ∀ p ∈ ps, (CfgExpr.fold q p).isSome) : (CfgExpr.foldAll q ps).isSome := by
  induction ps with
  | nil => simp [CfgExpr.foldAll]
  | cons p ps ih =>
    have hp := h p (List.mem_cons_self p ps)
    have hps := ih (fun x hx => h x (List.mem_cons_of_mem p hx))
    rcases Option.isSome_iff_exists.mp hp with ⟨b, hb⟩
    rcases Option.isSome_iff_exists.mp hps with ⟨c, hc⟩
    simp [CfgExpr.foldAll, hb, hc]

theorem foldAny_isSome (q : CfgAtom → Option Bool) (ps : List CfgExpr)
    (h : ∀ p ∈ ps, (CfgExpr.fold q p).isSome) : (CfgExpr.foldAny q ps).isSome := by
  induction ps with
  | nil => simp [CfgExpr.foldAny]
  | cons p ps ih =>
    have hp := h p (List.mem_cons_self p ps)
    have hps := ih (fun x hx => h x (List.mem_cons_of_mem p hx))
    rcases Option.isSome_iff_exists.mp hp with ⟨b, hb⟩
    rcases Option.isSome_iff_exists.mp hps with ⟨c, hc⟩
    simp [CfgExpr.foldAny, hb, hc]

theorem fold_isSome_of_total (q : CfgAtom → Option Bool) (hq : ∀ a, (q a).isSome) :
    ∀ (n : Nat) (e : CfgExpr), sizeOf e < n → (CfgExpr.fold q e).isSome := by
  intro n
  induction n with
  | zero =>
    intro e he
    omega
  | succ n ih =>
    intro e he
    cases e with
    | atom a => simpa [CfgExpr.fold] using hq a
    | all ps =>
      simp only [CfgExpr.fold]
      apply foldAll_isSome
      intro p hp
      apply ih
      have := List.sizeOf_lt_of_mem hp
      simp only [CfgExpr.all.sizeOf_spec] at he
      omega
    | any ps =>
      simp only [CfgExpr.fold]
      apply foldAny_isSome
      intro p hp
      apply ih
      have := List.sizeOf_lt_of_mem hp
      simp only [CfgExpr.any.sizeOf_spec] at he
      omega
    | not p =>
      simp only [CfgExpr.fold]
      rcases Option.isSome_iff_exists.mp
        (ih p (by simp only [CfgExpr.not.sizeOf_spec] at he; omega)) with ⟨b, hb⟩
      simp [hb]

/-! ## Executable acyclicity check -/

theorem acyclic_of_check (g : CrateGraph) (hwf : g.Wf) (hchk : g.acyclicCheck = true) :
    g.Acyclic := by
  intro u v huv hvu
  rcases huv with ⟨d, hlk, hv⟩
  rcases List.mem_map.mp hv with ⟨dep, hdep, hdv⟩
  have hmem : (u, d) ∈ g.arena := lookup_mem_arena g hlk
  unfold CrateGraph.acyclicCheck at hchk
  have h1 := List.all_eq_true.mp hchk (u, d) hmem
  have h2 := List.all_eq_true.mp h1 dep hdep
  have hfalse : g.dfsFindB u dep.crate_id = false := by
    cases hb : g.dfsFindB u dep.crate_id with
    | false => rfl
    | true =>
      rw [hb] at h2
      simp at h2
  have hvk : v ∈ g.keys := by
    rw [← hdv]
    exact hwf.2.2.2 (u, d) hmem dep hdep
  have := (dfsFindB_iff g u v hwf hvk).mpr
  rw [← hdv] at hvu
  have hsome := (dfsFindB_iff g u dep.crate_id hwf (hwf.2.2.2 (u, d) hmem dep hdep)).mpr hvu
  rw [hfalse] at hsome
  cases hsome

/-! ## The claims -/

/-- C1: `add_dep(from, name, to)` fails with a cycle error carrying both
endpoints' identifiers and display names exactly when `from` is reachable
from `to` along dependency edges (including `from = to`); on failure the
graph is unmodified, and otherwise the edge `(from, name, to)` is appended to
`from`'s dependency list without deduplication and the graph stays
acyclic. -/
theorem claim_C1_addDep (g : CrateGraph) (frm t : Nat) (name : String)
    (hwf : g.Wf) (hac : g.Acyclic) (hfrm : frm ∈ g.keys) (ht : t ∈ g.keys) :
    ((g.addDep frm name t).1.isSome ↔ g.Reaches t frm) ∧
    (g.Reaches t frm → g.addDep frm name t =
      (some { from_ := (frm, (g.lookupId frm).bind (fun d => d.display_name))
              to_ := (t, (g.lookupId t).bind (fun d => d.display_name)) }, g)) ∧
    (¬ g.Reaches t frm →
      (g.addDep frm name t).1 = none ∧
      (g.addDep frm name t).2.lookupId frm = (g.lookupId frm).map (fun d =>
        { d with dependencies := d.dependencies ++ [{ crate_id := t, name := name }] }) ∧
      (∀ c, c ≠ frm → (g.addDep frm name t).2.lookupId c = g.lookupId c) ∧
      (g.addDep frm name t).2.Acyclic) := by
  have hiff := dfsFindB_iff g frm t hwf ht
  unfold CrateGraph.addDep
  by_cases hdfs : g.dfsFindB frm t = true
  · rw [if_pos hdfs]
    have hr : g.Reaches t frm := hiff.mp hdfs
    refine ⟨⟨fun _ => hr, fun _ => rfl⟩, fun _ => rfl, fun hcon => absurd hr hcon⟩
  · rw [if_neg hdfs]
    have hnr : ¬ g.Reaches t frm := fun hr => hdfs (hiff.mpr hr)
    refine ⟨⟨fun hc => by simp at hc, fun hr => absurd hr hnr⟩,
      fun hr => absurd hr hnr, fun _ => ⟨rfl, ?_, ?_, ?_⟩⟩
    · exact lookup_updateCrate_self g frm _
    · intro c hc
      exact lookup_updateCrate_other g frm c _ hc
    · exact acyclic_addEdge g frm t name hfrm hac hnr

/-- Witness for C1 on a concrete two-crate graph: `add_dep(1, "x", 0)` is
rejected exactly because `1` is reachable from `0`. -/
theorem claim_C1_addDep_witness :
    (exG2.addDep 1 "x" 0).1.isSome ↔ exG2.Reaches 0 1 :=
  (claim_C1_addDep exG2 1 0 "x" (by decide)
    (acyclic_of_check exG2 (by decide) (by decide)) (by decide) (by decide)).1

/-- C3: on an acyclic, well-formed graph, `crates_in_topological_order()` is
a permutation of all crate identifiers, and for every dependency edge
`u -> v`, `v` occurs before `u` in the result. -/
theorem claim_C3_topologicalOrder (g : CrateGraph) (hwf : g.Wf) (hac : g.Acyclic) :
    g.cratesInTopologicalOrder.Perm g.keys ∧
    (∀ u v, g.edgeRel u v → ∃ l1 l2,
      g.cratesInTopologicalOrder = l1 ++ u :: l2 ∧ v ∈ l1) :=
  cratesInTopologicalOrder_spec g hwf hac

/-- Witness for C3 on a concrete two-crate graph. -/
theorem claim_C3_topologicalOrder_witness :
    exG2.cratesInTopologicalOrder.Perm exG2.keys :=
  (claim_C3_topologicalOrder exG2 (by decide)
    (acyclic_of_check exG2 (by decide) (by decide))).1

/-- C4: on a well-formed graph, `transitive_deps(u)` is exactly the set of
crates reachable from `u` (containing `u`), `transitive_rev_deps(u)` is
exactly the set of crates reaching `u` (containing `u`), both without
duplicates, and for any edge `u -> v`, `v ∈ transitive_deps(u)` and
`u ∈ transitive_rev_deps(v)`. -/
theorem claim_C4_transitiveClosures (g : CrateGraph) (hwf : g.Wf)
    (u : Nat) (hu : u ∈ g.keys) :
    (∀ x, x ∈ g.transitiveDeps u ↔ g.Reaches u x) ∧
    u ∈ g.transitiveDeps u ∧
    (g.transitiveDeps u).Nodup ∧
    (∀ x, x ∈ g.transitiveRevDeps u ↔ g.Reaches x u) ∧
    u ∈ g.transitiveRevDeps u ∧
    (g.transitiveRevDeps u).Nodup ∧
    (∀ v, g.edgeRel u v →
      v ∈ g.transitiveDeps u ∧ u ∈ g.transitiveRevDeps v) := by
  refine ⟨fun x => mem_transitiveDeps_iff g hwf u hu x,
    (mem_transitiveDeps_iff g hwf u hu u).mpr (reaches_refl g u),
    transitiveDeps_nodup g hwf u hu,
    fun x => mem_transitiveRevDeps_iff g hwf u hu x,
    (mem_transitiveRevDeps_iff g hwf u hu u).mpr (reaches_refl g u),
    transitiveRevDeps_nodup g hwf u hu, ?_⟩
  intro v huv
  have hvk : v ∈ g.keys := succList_subset_keys g hwf u v
    ((edgeRel_iff_mem_succList g u v).mp huv)
  exact ⟨(mem_transitiveDeps_iff g hwf u hu v).mpr (reaches_of_edge g huv),
    (mem_transitiveRevDeps_iff g hwf v hvk u).mpr (reaches_of_edge g huv)⟩

/-- Witness for C4 on a concrete two-crate graph. -/
theorem claim_C4_transitiveClosures_witness :
    0 ∈ exG2.transitiveDeps 0 :=
  (claim_C4_transitiveClosures exG2 (by decide) 0 (by decide)).2.1

/-- C5: `CfgOptions::check` is total and two-valued: against the total
membership oracle of an option set, evaluating any conditional-compilation
expression always yields a definite boolean, never the indeterminate
outcome. -/
theorem claim_C5_checkTotal : ∀ (o : CfgOptions) (e : CfgExpr), ∃ b, o.check e = some b := by
  intro o e
  have h := fold_isSome_of_total (fun a => some (decide (a ∈ o.enabled)))
    (fun a => rfl) (sizeOf e + 1) e (by omega)
  rcases Option.isSome_iff_exists.mp h with ⟨b, hb⟩
  exact ⟨b, hb⟩

/-- C6: `extend(other)` returns the receiver's previous size; the merged
graph is the disjoint union, with `other`'s identifiers and edge targets
shifted by that amount and `g`'s entries untouched; and for well-formed
(dense) graphs the merge is associative under the shift bookkeeping. -/
theorem claim_C6_extend (g other third : CrateGraph)
    (hg : g.Wf) (ho : other.Wf) (h3 : third.Wf) :
    (g.extend other).1 = g.arena.length ∧
    (g.extend other).2.keys = g.keys ++ other.keys.map (fun i => i + g.arena.length) ∧
    (∀ c ∈ g.keys, (g.extend other).2.lookupId c = g.lookupId c) ∧
    (∀ c d, other.lookupId c = some d →
      (g.extend other).2.lookupId (c + g.arena.length) =
        some (shiftData g.arena.length d)) ∧
    ((g.extend other).2.extend third).2 = (g.extend (other.extend third).2).2 ∧
    ((g.extend other).2.extend third).1 = g.arena.length + other.arena.length ∧
    (other.extend third).1 = other.arena.length := by
  have heq := extend_eq_append g other hg ho
  refine ⟨by rw [heq], by rw [heq]; exact keys_append_shift g other, ?_, ?_, ?_, ?_, ?_⟩
  · intro c hc
    rw [heq]
    exact lookupId_append_left g _ c hc
  · intro c d hd
    rw [heq]
    exact lookupId_extend_shift g other hg c d hd
  · -- associativity of the merge
    have hgo : (g.extend other).2.Wf := wf_extend g other hg ho
    have hot : (other.extend third).2.Wf := wf_extend other third ho h3
    have h1 := extend_eq_append (g.extend other).2 third hgo h3
    have h2 := extend_eq_append other third ho h3
    have h3' := extend_eq_append g (other.extend third).2 hg hot
    rw [h1, h3', heq, h2]
    have hlen : (CrateGraph.mk (g.arena ++
        shiftList g.arena.length other.arena)).arena.length =
        g.arena.length + other.arena.length := by
      show (g.arena ++ shiftList g.arena.length other.arena).length = _
      rw [List.length_append]
      unfold shiftList
      rw [List.length_map]
    show CrateGraph.mk ((g.arena ++ shiftList g.arena.length other.arena) ++
        shiftList (CrateGraph.mk (g.arena ++
          shiftList g.arena.length other.arena)).arena.length third.arena) =
      CrateGraph.mk (g.arena ++ shiftList g.arena.length
        (CrateGraph.mk (other.arena ++ shiftList other.arena.length third.arena)).arena)
    rw [hlen]
    show CrateGraph.mk ((g.arena ++ shiftList g.arena.length other.arena) ++
        shiftList (g.arena.length + other.arena.length) third.arena) =
      CrateGraph.mk (g.arena ++ shiftList g.arena.length
        (other.arena ++ shiftList other.arena.length third.arena))
    congr 1
    unfold shiftList
    rw [List.map_append, List.append_assoc]
    congr 2
    rw [List.map_map]
    apply List.map_congr_left
    intro p _
    simp only [Function.comp_apply]
    rw [shiftData_comp]
    unfold shiftId
    congr 1
    · omega
    · rw [Nat.add_comm]
  · have hgo : (g.extend other).2.Wf := wf_extend g other hg ho
    have h1 := extend_eq_append (g.extend other).2 third hgo h3
    rw [h1, heq]
    show (CrateGraph.mk (g.arena ++ shiftList g.arena.length other.arena)).arena.length = _
    show (g.arena ++ shiftList g.arena.length other.arena).length = _
    rw [List.length_append]
    unfold shiftList
    rw [List.length_map]
  · rw [extend_eq_append other third ho h3]

/-- Witness for C6 on concrete graphs. -/
theorem claim_C6_extend_witness : (exG2.extend exG2).1 = exG2.arena.length :=
  (claim_C6_extend exG2 exG2 exG2 (by decide) (by decide) (by decide)).1

/-- C7: for a valid diff (accepted by `CfgDiff::new`), `apply_diff` first
inserts all enabled atoms and then removes all disabled atoms, and it is
idempotent: applying the diff twice equals applying it once. -/
theorem claim_C7_applyDiff (o : CfgOptions) (d : CfgDiff)
    (h : CfgDiff.new d.enable d.disable = some d) :
    o.applyDiff d = ⟨d.disable.foldl CfgOptions.removeAtomSet
      (d.enable.foldl CfgOptions.insertAtomSet o.enabled)⟩ ∧
    (o.applyDiff d).applyDiff d = o.applyDiff d := by
  have hnd : (d.enable ++ d.disable).Nodup := by
    by_cases hcase : (d.enable ++ d.disable).Nodup
    · exact hcase
    · have := (cfgDiff_new_eq_none_iff d.enable d.disable).mpr hcase
      rw [this] at h
      cases h
  have hdisj : ∀ a ∈ d.enable, a ∉ d.disable := by
    have := List.nodup_append.mp hnd
    intro a ha
    exact this.2.2 ha
  refine ⟨rfl, ?_⟩
  have hS1 : ∀ e ∈ d.enable, e ∈ d.disable.foldl CfgOptions.removeAtomSet
      (d.enable.foldl CfgOptions.insertAtomSet o.enabled) := by
    intro e he
    rw [mem_foldl_removeAtomSet]
    exact ⟨(mem_foldl_insertAtomSet d.enable o.enabled e).mpr (Or.inl he), hdisj e he⟩
  have hins : d.enable.foldl CfgOptions.insertAtomSet
      (d.disable.foldl CfgOptions.removeAtomSet
        (d.enable.foldl CfgOptions.insertAtomSet o.enabled)) =
      d.disable.foldl CfgOptions.removeAtomSet
        (d.enable.foldl CfgOptions.insertAtomSet o.enabled) :=
    foldl_insertAtomSet_of_all_mem d.enable _ hS1
  show CfgOptions.mk (d.disable.foldl CfgOptions.removeAtomSet
      (d.enable.foldl CfgOptions.insertAtomSet
        (d.disable.foldl CfgOptions.removeAtomSet
          (d.enable.foldl CfgOptions.insertAtomSet o.enabled)))) =
    CfgOptions.mk (d.disable.foldl CfgOptions.removeAtomSet
      (d.enable.foldl CfgOptions.insertAtomSet o.enabled))
  rw [hins]
  congr 1
  apply foldl_removeAtomSet_of_none_mem
  intro a ha hmem
  rw [mem_foldl_removeAtomSet] at hmem
  exact hmem.2 ha

/-- Witness for C7 on a concrete option set and diff. -/
theorem claim_C7_applyDiff_witness :
    (CfgOptions.mk []).applyDiff ⟨[CfgAtom.flag ("a")], [CfgAtom.flag ("b")]⟩ =
      ⟨[CfgAtom.flag ("b")].foldl CfgOptions.removeAtomSet
        ([CfgAtom.flag ("a")].foldl CfgOptions.insertAtomSet [])⟩ :=
  (claim_C7_applyDiff ⟨[]⟩ ⟨[CfgAtom.flag ("a")], [CfgAtom.flag ("b")]⟩ (by decide)).1

/-- C8: `CfgDiff::new(enable, disable)` returns no value exactly when some
atom occurs more than once in `enable ++ disable` (a duplicate within one
list, or an atom in both lists); otherwise it returns the diff carrying
exactly the given lists. -/
theorem claim_C8_cfgDiffNew (enable disable : List CfgAtom) :
    (CfgDiff.new enable disable = none ↔ ¬ (enable ++ disable).Nodup) ∧
    ((enable ++ disable).Nodup → CfgDiff.new enable disable = some ⟨enable, disable⟩) :=
  ⟨cfgDiff_new_eq_none_iff enable disable,
    fun h => (cfgDiff_new_eq_some_iff enable disable).mpr h⟩

/-- Witness for C8: an atom occurring in both lists is rejected. -/
theorem claim_C8_cfgDiffNew_witness :
    CfgDiff.new [CfgAtom.flag ("a")] [CfgAtom.flag ("a")] = none :=
  (claim_C8_cfgDiffNew [CfgAtom.flag ("a")] [CfgAtom.flag ("a")]).1.mpr (by decide)

/-- C9: `patch_cfg_if` returns `true` exactly when the graph holds both a
crate displayed as `cfg_if` and one displayed as `std`; in that case it
clears the `cfg_if` crate's dependency list and appends the single edge
`std -> cfg_if` named `cfg_if`, leaves every other crate's record unchanged,
and preserves acyclicity; on `false` the graph is unchanged. -/
theorem claim_C9_patchCfgIf (g : CrateGraph) (hwf : g.Wf) (hac : g.Acyclic) :
    (g.patchCfgIf.1 = true ↔
      ((∃ c ∈ g.keys, g.dispOf c = some ("cfg_if")) ∧
        (∃ c ∈ g.keys, g.dispOf c = some ("std")))) ∧
    (g.patchCfgIf.1 = false → g.patchCfgIf.2 = g) ∧
    (∀ ci st, g.hackyFindCrate ("cfg_if") = some ci →
      g.hackyFindCrate ("std") = some st →
      g.patchCfgIf.2.lookupId ci =
        (g.lookupId ci).map (fun d => { d with dependencies := [] }) ∧
      g.patchCfgIf.2.lookupId st =
        (g.lookupId st).map (fun d => { d with dependencies :=
          d.dependencies ++ [{ crate_id := ci, name := "cfg_if" }] }) ∧
      (∀ c, c ≠ ci → c ≠ st → g.patchCfgIf.2.lookupId c = g.lookupId c) ∧
      g.patchCfgIf.2.Acyclic) := by
  refine ⟨?_, ?_, ?_⟩
  · unfold CrateGraph.patchCfgIf
    cases hci : g.hackyFindCrate ("cfg_if") with
    | none =>
      cases hst : g.hackyFindCrate ("std") with
      | none =>
        simp only
        constructor
        · intro hc
          cases hc
        · rintro ⟨hex, -⟩
          have := (hackyFindCrate_isSome_iff g ("cfg_if")).mpr hex
          rw [hci] at this
          simp at this
      | some st =>
        simp only
        constructor
        · intro hc
          cases hc
        · rintro ⟨hex, -⟩
          have := (hackyFindCrate_isSome_iff g ("cfg_if")).mpr hex
          rw [hci] at this
          simp at this
    | some ci =>
      cases hst : g.hackyFindCrate ("std") with
      | none =>
        simp only
        constructor
        · intro hc
          cases hc
        · rintro ⟨-, hex⟩
          have := (hackyFindCrate_isSome_iff g ("std")).mpr hex
          rw [hst] at this
          simp at this
      | some st =>
        simp only [true_iff]
        exact ⟨(hackyFindCrate_isSome_iff g ("cfg_if")).mp (by rw [hci]; rfl),
          (hackyFindCrate_isSome_iff g ("std")).mp (by rw [hst]; rfl)⟩
  · unfold CrateGraph.patchCfgIf
    cases hci : g.hackyFindCrate ("cfg_if") with
    | none =>
      cases hst : g.hackyFindCrate ("std") with
      | none => intro _; rfl
      | some st => intro _; rfl
    | some ci =>
      cases hst : g.hackyFindCrate ("std") with
      | none => intro _; rfl
      | some st =>
        intro hc
        cases hc
  · intro ci st hci hst
    obtain ⟨hcik, hcid⟩ := hackyFindCrate_eq_some g ("cfg_if") ci hci
    obtain ⟨hstk, hstd⟩ := hackyFindCrate_eq_some g ("std") st hst
    have hne : ci ≠ st := dispOf_ne_of_names g ci st hcid hstd
    have hpatch : g.patchCfgIf =
        (true, (g.updateCrate ci (fun d => { d with dependencies := [] })).updateCrate st
          (fun d => { d with dependencies := d.dependencies ++
            [{ crate_id := ci, name := "cfg_if" }] })) := by
      unfold CrateGraph.patchCfgIf
      rw [hci, hst]
    have hdci : ∃ dci, g.lookupId ci = some dci := by
      unfold CrateGraph.dispOf at hcid
      cases hl : g.lookupId ci with
      | none =>
        rw [hl] at hcid
        cases hcid
      | some dci => exact ⟨dci, rfl⟩
    have hdst : ∃ dst, g.lookupId st = some dst := by
      unfold CrateGraph.dispOf at hstd
      cases hl : g.lookupId st with
      | none =>
        rw [hl] at hstd
        cases hstd
      | some dst => exact ⟨dst, rfl⟩
    obtain ⟨dci, hdci⟩ := hdci
    obtain ⟨dst, hdst⟩ := hdst
    rw [hpatch]
    exact ⟨patch_lookup_ci g ci st hne, patch_lookup_st g ci st hne,
      fun c hc1 hc2 => patch_lookup_other g ci st c hc1 hc2,
      patch_acyclic g ci st hne hdci hdst hac⟩

/-- Witness for C9 on a graph containing `cfg_if` and `std` crates. -/
theorem claim_C9_patchCfgIf_witness :
    exG9.patchCfgIf.1 = true ↔
      ((∃ c ∈ exG9.keys, exG9.dispOf c = some ("cfg_if")) ∧
        (∃ c ∈ exG9.keys, exG9.dispOf c = some ("std"))) :=
  (claim_C9_patchCfgIf exG9 (by decide)
    (acyclic_of_check exG9 (by decide) (by decide))).1

/-- C10: every graph reachable from the empty graph through the public
interface is well-formed — its identifiers are exactly `{0, …, n-1}`, no
dependency edge dangles — and on such graphs `add_crate_root` always
succeeds (its duplicate-identifier assertion never fires), appending a fresh
crate under the next dense identifier. -/
theorem claim_C10_builtWf (g : CrateGraph) (hb : Built g) :
    g.Wf ∧
    ∀ (fid : Nat) (ed : Edition) (dn : Option CrateDisplayName)
      (cfg pcfg : CfgOptions) (env : List (String × String)),
      g.addCrateRoot fid ed dn cfg pcfg env =
        some (g.arena.length,
          ⟨g.arena ++ [(g.arena.length, CrateData.mk fid ed dn cfg pcfg env [])]⟩) := by
  have hwf := built_wf hb
  exact ⟨hwf, fun fid ed dn cfg pcfg env =>
    addCrateRoot_eq_of_wf g hwf fid ed dn cfg pcfg env⟩

/-- Witness for C10: a graph built by two `add_crate_root` calls and one
successful `add_dep` call is well-formed. -/
theorem claim_C10_builtWf_witness : exG2.Wf := by
  have h0 : Built ⟨[]⟩ := Built.empty
  have he1 : (⟨[]⟩ : CrateGraph).addCrateRoot 0 Edition.edition2018 none ⟨[]⟩ ⟨[]⟩ [] =
      some (0, ⟨[(0, exData [])]⟩) := by decide
  have h1 : Built (⟨[(0, exData [])]⟩ : CrateGraph) := Built.addRoot h0 he1
  have he2 : (⟨[(0, exData [])]⟩ : CrateGraph).addCrateRoot 0 Edition.edition2018
      none ⟨[]⟩ ⟨[]⟩ [] = some (1, ⟨[(0, exData []), (1, exData [])]⟩) := by decide
  have h2 : Built (⟨[(0, exData []), (1, exData [])]⟩ : CrateGraph) := Built.addRoot h1 he2
  have h3 : Built ((⟨[(0, exData []), (1, exData [])]⟩ : CrateGraph).addDep 0 "dep" 1).2 :=
    Built.addDepStep h2 (by decide) (by decide)
  have heq : ((⟨[(0, exData []), (1, exData [])]⟩ : CrateGraph).addDep 0 "dep" 1).2 = exG2 := by
    decide
  rw [heq] at h3
  exact (claim_C10_builtWf exG2 h3).1

/-- C2: `Change::apply` performs its edits in the fixed order roots, then
file texts, then crate graph, with durabilities assigned exactly as the spec
describes: root identifiers by zero-based enumeration, library roots (and
their files) at high durability and local ones at low, each file edit tagged
with the durability of the file's current source root (absent text becoming
empty), and the crate graph installed at high durability. -/
theorem claim_C2_changeApply : ∀ (c : Change) (db : DB),
    c.apply db = specApplyChange c db := by
  intro c db
  rfl

end RA
